import Mathlib

/-!
Verification of the SHIfT-coding log-parsing pipeline.

The repository has three Python drivers built around the same core:
`dayparserz.py` (daily buckets), `minparserz.py` (minute buckets) and
`parser.py` (chunked reading).  Strings are modelled as `List Char`;
Python regular-expression substitutions are modelled by explicit
deterministic scanners that reproduce the backtracking behaviour of the
concrete patterns used by the source (each scanner is annotated with the
pattern it implements).  Mutable object state is modelled by explicit
state passing; a Python exception (IndexError reachable in
`buffer_query`) is modelled by `Option`/a crash flag.
-/

/-- Strings of the Python source are modelled as lists of characters. -/
abbrev Str := List Char

/-- The single-quote character, written via its code point. -/
def quoteChar : Char := Char.ofNat 39

/-- Word characters for the `\b` boundary of Python `re` (ASCII model:
alphanumeric or underscore). -/
def isWordChar (c : Char) : Bool := c.isAlphanum || c = '_'

/-- Drop characters satisfying `p` from the end of a list
(Python `rstrip`, parametrised by the character set). -/
def rdropWhile (p : Char → Bool) (l : Str) : Str :=
  (l.reverse.dropWhile p).reverse

/-- Python `str.strip()` with no argument: remove whitespace at both ends. -/
def stripWS (l : Str) : Str :=
  rdropWhile Char.isWhitespace (l.dropWhile Char.isWhitespace)

/-- Python `rstrip(";")` as used on statement bodies. -/
def rstripSemi (l : Str) : Str := rdropWhile (· = ';') l

theorem length_dropWhile_le (p : Char → Bool) (l : Str) :
    (l.dropWhile p).length ≤ l.length := by
  induction l with
  | nil => simp [List.dropWhile]
  | cons c t ih =>
    by_cases h : p c <;> simp [List.dropWhile, h] <;> omega

/-- Word accumulator for `pySplit`: `acc` is the current word reversed. -/
def pySplitAux : Str → Str → List Str
  | [], acc => if acc.isEmpty then [] else [acc.reverse]
  | c :: rest, acc =>
    if c.isWhitespace then
      if acc.isEmpty then pySplitAux rest [] else acc.reverse :: pySplitAux rest []
    else pySplitAux rest (c :: acc)

/-- Python `str.split()` with no argument: the list of maximal
whitespace-free words, leading/trailing whitespace ignored. -/
def pySplit (s : Str) : List Str := pySplitAux s []

/-- Collapse whitespace runs and trim, Python `" ".join(s.split())`. -/
def collapseWS (s : Str) : Str := List.intercalate [' '] (pySplit s)

/-- First whitespace-delimited token (`s.split()[0]`); `none` models the
IndexError raised when `split()` is empty. -/
def firstTok (s : Str) : Option Str := (pySplit s).head?

/-- Scanner for the tail of Python pattern `'(?:''|[^'])*'` after the
opening quote has been consumed.  Returns the remainder of the input
after the closing quote of the match, reproducing the backtracking of
the greedy star: a doubled quote is consumed as an escaped quote when
the rest of the input still matches, and otherwise the first quote of
the pair closes the literal. -/
def scanLit : Str → Option Str
  | [] => none
  | c :: rest =>
    if c = quoteChar then
      match rest with
      | c2 :: rest2 =>
        if c2 = quoteChar then
          match scanLit rest2 with
          | some r => some r
          | none => some rest
        else some rest
      | [] => some []
    else scanLit rest

theorem scanLit_length : ∀ (cs r : Str), scanLit cs = some r → r.length < cs.length := by
  intro cs
  induction cs using scanLit.induct with
  | case1 => intro r h; exact nomatch h
  | case2 rest2 r0 hsc ih =>
    intro r h
    rw [scanLit.eq_2, if_pos rfl, if_pos rfl, hsc] at h
    cases h
    have h2 := ih r0 hsc
    simp only [List.length_cons]
    omega
  | case3 rest2 hsc ih =>
    intro r h
    rw [scanLit.eq_2, if_pos rfl, if_pos rfl, hsc] at h
    cases h
    simp only [List.length_cons]
    omega
  | case4 c2 rest2 hc2 =>
    intro r h
    rw [scanLit.eq_2, if_pos rfl, if_neg hc2] at h
    cases h
    simp only [List.length_cons]
    omega
  | case5 =>
    intro r h
    rw [scanLit.eq_3, if_pos rfl] at h
    cases h
    simp
  | case6 c rest hc ih =>
    intro r h
    match rest, ih, h with
    | [], _, h =>
      rw [scanLit.eq_3, if_neg hc] at h
      exact nomatch h
    | c2 :: rest2, ih, h =>
      rw [scanLit.eq_2, if_neg hc] at h
      have h2 := ih r h
      simp only [List.length_cons] at h2 ⊢
      omega

/-- The replacement token of the string-literal substitution. -/
def strTok : Str := "$str".data

/-- The replacement token of the numeric substitutions. -/
def numTok : Str := "$num".data

/-- Fuel-indexed body of the string-literal substitution (the fuel —
always at least the length of the remaining input — makes the scanner
structurally recursive; every recursive call shortens the input, so
the fuel-exhausted branch is unreachable from `subStrLit`). -/
def subStrLitF : Nat → Str → Str
  | _, [] => []
  | 0, s => s
  | f + 1, c :: rest =>
    if c = quoteChar then
      match scanLit rest with
      | some r => strTok ++ subStrLitF f r
      | none => c :: subStrLitF f rest
    else c :: subStrLitF f rest

/-- Python `re.sub(r"'(?:''|[^'])*'", "$str", s)`: scan left to right,
replace each match of the quoted-literal pattern by `$str`. -/
def subStrLit (s : Str) : Str := subStrLitF s.length s

theorem subStrLitF_nil : ∀ f, subStrLitF f [] = [] := by
  intro f; cases f <;> rfl

theorem subStrLitF_irrel :
    ∀ (f : Nat), ∀ (g : Nat) (s : Str), s.length ≤ f → s.length ≤ g →
      subStrLitF f s = subStrLitF g s := by
  intro f
  induction f with
  | zero =>
    intro g s hf _
    have : s = [] := List.length_eq_zero.mp (Nat.le_zero.mp hf)
    subst this
    rw [subStrLitF_nil, subStrLitF_nil]
  | succ f ih =>
    intro g s hf hg
    cases s with
    | nil => rw [subStrLitF_nil, subStrLitF_nil]
    | cons c rest =>
      cases g with
      | zero => simp at hg
      | succ g =>
        simp only [List.length_cons] at hf hg
        rw [subStrLitF.eq_3, subStrLitF.eq_3]
        by_cases hc : c = quoteChar
        · rw [if_pos hc, if_pos hc]
          cases hsc : scanLit rest with
          | some r =>
            have hr := scanLit_length rest r hsc
            show strTok ++ subStrLitF f r = strTok ++ subStrLitF g r
            rw [ih g r (by omega) (by omega)]
          | none =>
            show c :: subStrLitF f rest = c :: subStrLitF g rest
            rw [ih g rest (by omega) (by omega)]
        · rw [if_neg hc, if_neg hc]
          rw [ih g rest (by omega) (by omega)]

/-- Python `re.sub(pat, tok, s)` for `pat = r"\b\d+\b"`: the boolean
argument records whether the previous character is a word character
(so that the leading `\b` can be decided); a maximal digit run is
replaced when it is preceded and followed by a non-word character. -/
def subNumF (tok : Str) : Nat → Bool → Str → Str
  | _, _, [] => []
  | 0, _, s => s
  | f + 1, prevW, c :: rest =>
    if c.isDigit && !prevW then
      match (rest.dropWhile Char.isDigit).head? with
      | some c2 =>
        if isWordChar c2 then
          (c :: rest.takeWhile Char.isDigit) ++ subNumF tok f true (rest.dropWhile Char.isDigit)
        else tok ++ subNumF tok f true (rest.dropWhile Char.isDigit)
      | none => tok ++ subNumF tok f true (rest.dropWhile Char.isDigit)
    else c :: subNumF tok f (isWordChar c) rest

def subNumWith (tok : Str) (prevW : Bool) (s : Str) : Str := subNumF tok s.length prevW s

/-- Python `re.sub(r"\b\d+\b", "$num", s)` (pattern `number_pattern`). -/
def subNum : Str → Str := subNumWith numTok false

/-- Python `re.sub(r"\b\d+\.\d+\b", "$num", s)` (pattern
`float_pattern`): a maximal digit run, a dot, a second maximal digit
run, guarded by word boundaries; when a candidate fails, scanning
resumes exactly where the backtracking engine would resume. -/
def subFloatF : Nat → Bool → Str → Str
  | _, _, [] => []
  | 0, _, s => s
  | f + 1, prevW, c :: rest =>
    if c.isDigit && !prevW then
      match rest.dropWhile Char.isDigit with
      | c1 :: r2 =>
        if c1 = '.' then
          if (r2.takeWhile Char.isDigit).isEmpty then
            (c :: rest.takeWhile Char.isDigit) ++ '.' :: subFloatF f false r2
          else
            match (r2.dropWhile Char.isDigit).head? with
            | some c3 =>
              if isWordChar c3 then
                (c :: rest.takeWhile Char.isDigit) ++ '.' :: subFloatF f false r2
              else numTok ++ subFloatF f true (r2.dropWhile Char.isDigit)
            | none => numTok ++ subFloatF f true (r2.dropWhile Char.isDigit)
        else (c :: rest.takeWhile Char.isDigit) ++ subFloatF f true (c1 :: r2)
      | [] => (c :: rest.takeWhile Char.isDigit) ++ subFloatF f true []
    else c :: subFloatF f (isWordChar c) rest

/-- Python `float_pattern.sub("$num", s)`. -/
def subFloat (s : Str) : Str := subFloatF s.length false s

/-- The pure normalisation pipeline of `PostgresLogParser.normalize_sql`
(`dayparserz.py` lines 94-104, identical in `minparserz.py`): string
literals, then decimal numbers, then integers, then whitespace collapse. -/
def normalizeSqlPure (sql : Str) : Str :=
  collapseWS (subNum (subFloat (subStrLit sql)))

/-! ### Model of `dayparserz.py` -/

/-- A statement record as built by `extract_query`: the Python dict
`{'timestamp': ..., 'sql': ...}`. -/
structure Query where
  ts : Str
  sql : Str
deriving DecidableEq, Repr

/-- Exactly `n` digits (`\d{n}`), returning them and the rest. -/
def digitsExact : Nat → Str → Option (Str × Str)
  | 0, cs => some ([], cs)
  | _ + 1, [] => none
  | n + 1, c :: cs =>
    if c.isDigit then (digitsExact n cs).map (fun p => (c :: p.1, p.2)) else none

/-- A single literal character of the pattern. -/
def litChar (c : Char) : Str → Option Str
  | [] => none
  | d :: cs => if d = c then some cs else none

/-- The optional greedy fractional part `(?:\.\d+)?`. -/
def fracPart (cs : Str) : Str × Str :=
  match cs with
  | c :: rest =>
    if c = '.' ∧ (rest.head?.map Char.isDigit).getD false then
      ('.' :: rest.takeWhile Char.isDigit, rest.dropWhile Char.isDigit)
    else ([], cs)
  | [] => ([], cs)

/-- The optional `(?: UTC)?` of the timestamp, case-insensitive. -/
def utcPart (cs : Str) : Str × Str :=
  match cs with
  | a :: b :: c :: d :: rest =>
    if a = ' ' ∧ b.toLower = 'u' ∧ c.toLower = 't' ∧ d.toLower = 'c' then
      ([a, b, c, d], rest)
    else ([], cs)
  | _ => ([], cs)

/-- Anchored match of the capture
`(\d{4}-\d{2}-\d{2} \d{2}:\d{2}:\d{2}(?:\.\d+)?(?: UTC)?)` of
`log_pattern` (`dayparserz.py` lines 11-14).  The two optional groups
are deterministic here: backtracking into them can never change whether
the rest of the pattern matches, because the skipped characters can
contain no start of the `statement: ` marker. -/
def parseTsHead (cs : Str) : Option (Str × Str) := do
  let (y, r1) ← digitsExact 4 cs
  let r2 ← litChar '-' r1
  let (mo, r3) ← digitsExact 2 r2
  let r4 ← litChar '-' r3
  let (dd, r5) ← digitsExact 2 r4
  let r6 ← litChar ' ' r5
  let (hh, r7) ← digitsExact 2 r6
  let r8 ← litChar ':' r7
  let (mi, r9) ← digitsExact 2 r8
  let r10 ← litChar ':' r9
  let (ss, r11) ← digitsExact 2 r10
  let (fr, r12) := fracPart r11
  let (ut, r13) := utcPart r12
  some (y ++ '-' :: mo ++ '-' :: dd ++ ' ' :: hh ++ ':' :: mi ++ ':' :: ss ++ fr ++ ut, r13)

/-- Case-insensitive prefix test (IGNORECASE literal match). -/
def startsWithCI : Str → Str → Bool
  | [], _ => true
  | _ :: _, [] => false
  | p :: ps, c :: cs => (c.toLower = p.toLower) && startsWithCI ps cs

/-- Lazy `.*?pat`: the text after the first (case-insensitive)
occurrence of `pat`, or `none`. -/
def findCIAfter (pat : Str) : Str → Option Str
  | [] => if pat.isEmpty then some [] else none
  | c :: t =>
    if startsWithCI pat (c :: t) then some ((c :: t).drop pat.length)
    else findCIAfter pat t

/-- The `statement: ` marker of the `dayparserz.py` pattern. -/
def stmtMarker : Str := "statement: ".data

/-- `PostgresLogParser.extract_query` (`dayparserz.py` lines 54-60):
match `log_pattern`, returning the stripped timestamp and the stripped
statement text (capture `(.*?)(?:;|$)` stops at the first semicolon). -/
def extract_query (line : Str) : Option Query :=
  match parseTsHead line with
  | none => none
  | some (ts, rest) =>
    match findCIAfter stmtMarker rest with
    | none => none
    | some tail => some ⟨stripWS ts, stripWS (tail.takeWhile (· ≠ ';'))⟩

/-- Association-list read with default (Python dict / defaultdict get). -/
def getA {α : Type} (m : List (Str × α)) (k : Str) (d : α) : α :=
  match m with
  | [] => d
  | (k0, v) :: rest => if k0 = k then v else getA rest k d

/-- Association-list write (Python dict item assignment). -/
def setA {α : Type} (m : List (Str × α)) (k : Str) (v : α) : List (Str × α) :=
  match m with
  | [] => [(k, v)]
  | (k0, v0) :: rest => if k0 = k then (k0, v) :: rest else (k0, v0) :: setA rest k v

/-- The mutable state of one `PostgresLogParser` run (`dayparserz.py`):
`dates_seen` (as an insertion-ordered duplicate-free list), the
per-file write buffers, the bytes already appended to each file, the
opened and closed file handles, and a ghost field `routed` recording
every `(timestamp, sql)` pair ever buffered for each file. -/
structure DState where
  dates : List Str
  buffers : List (Str × List Str)
  contents : List (Str × List Str)
  routed : List (Str × List (Str × Str))
  opened : List Str
  closed : List Str
deriving DecidableEq, Repr

def initD : DState := ⟨[], [], [], [], [], []⟩

/-- The five operation kinds of the source. -/
def OPS : List Str :=
  ["SELECT".data, "INSERT".data, "UPDATE".data, "DELETE".data, "OTHER".data]

/-- The classification of `buffer_query` (`dayparserz.py` lines 66-74):
`first_word = sql.split()[0].upper() if sql else ''` followed by the
`WITH / SELECT / INSERT / UPDATE / DELETE / OTHER` dispatch.  `none`
models the IndexError raised by `split()[0]` when `sql` is non-empty
but contains only whitespace. -/
def classifyOp (sql : Str) : Option Str :=
  if sql.isEmpty then some "OTHER".data
  else
    match firstTok sql with
    | none => none
    | some t =>
      let w := t.map Char.toUpper
      if w = "WITH".data then some "SELECT".data
      else if w = "SELECT".data ∨ w = "INSERT".data ∨ w = "UPDATE".data ∨ w = "DELETE".data then
        some w
      else some "OTHER".data

/-- The line format appended to a bucket store:
`f"{query['timestamp']} | {sql}\n"`. -/
def renderLine (ts sql : Str) : Str := ts ++ " | ".data ++ sql ++ ['\n']

/-- The flush threshold `self.buffer_size`. -/
def bufferSize : Nat := 1000

/-- `PostgresLogParser.buffer_query` (`dayparserz.py` lines 62-86).
The guard `if not query or 'sql' not in query` can never fire (all
call sites pass a dict built by `extract_query`), so it is not
modelled.  `none` models an IndexError (whitespace-only `sql`, or a
timestamp without tokens); the Python statements before the raising
expression have no side effects, so the state is unchanged on a crash. -/
def bufferQuery (q : Query) (st : DState) : Option DState :=
  let sql := rstripSemi q.sql
  match classifyOp sql with
  | none => none
  | some op =>
    match firstTok q.ts with
    | none => none
    | some d =>
      let st1 := { st with dates := if d ∈ st.dates then st.dates else st.dates ++ [d] }
      let filename := op ++ '_' :: d ++ ".log".data
      let st2 :=
        if filename ∈ st1.opened then st1
        else { st1 with opened := st1.opened ++ [filename] }
      let st3 := { st2 with
        buffers := setA st2.buffers filename (getA st2.buffers filename [] ++ [renderLine q.ts sql]),
        routed := setA st2.routed filename (getA st2.routed filename [] ++ [(q.ts, sql)]) }
      if bufferSize ≤ (getA st3.buffers filename []).length then
        some { st3 with
          contents := setA st3.contents filename
            (getA st3.contents filename [] ++ getA st3.buffers filename []),
          buffers := setA st3.buffers filename [] }
      else some st3

/-- The fold of `flush_buffers` over `self.file_buffers.items()`. -/
def flushFold (opened : List Str) : List (Str × List Str) → List (Str × List Str) → List (Str × List Str)
  | [], contents => contents
  | (f, b) :: rest, contents =>
    flushFold opened rest (if b ≠ [] ∧ f ∈ opened then setA contents f (getA contents f [] ++ b) else contents)

/-- `PostgresLogParser.flush_buffers` (`dayparserz.py` lines 88-92):
write every non-empty buffer whose file is open, then clear all buffers. -/
def flushBuffers (st : DState) : DState :=
  { st with contents := flushFold st.opened st.buffers st.contents, buffers := [] }

/-- The `for file in output_files.values(): file.close()` loop. -/
def closeAll (st : DState) : DState := { st with closed := st.opened }

/-- One iteration of the read loop of `PostgresLogParser.parse`
(`dayparserz.py` lines 32-42): strip, skip empty lines, finalize the
current record on a leading digit, otherwise append the line to the
current record.  `none` models a crash inside `buffer_query`. -/
def dayStep (st : DState × Option Query) (rawLine : Str) : Option (DState × Option Query) :=
  let line := stripWS rawLine
  if line.isEmpty then some st
  else if (line.head?.map Char.isDigit).getD false then
    match st.2 with
    | some q =>
      match bufferQuery q st.1 with
      | none => none
      | some s1 => some (s1, extract_query line)
    | none => some (st.1, extract_query line)
  else
    match st.2 with
    | some q => some (st.1, some ⟨q.ts, q.sql ++ ' ' :: line⟩)
    | none => some st

/-- The read loop over the delivered lines; the boolean is the crash
flag (an exception escaping the loop body). -/
def dayLoop : List Str → DState × Option Query → Bool × DState × Option Query
  | [], st => (false, st)
  | l :: ls, st =>
    match dayStep st l with
    | some s2 => dayLoop ls s2
    | none => (true, st)

/-- The `finally` block of `parse` (`dayparserz.py` lines 43-48): a
final `buffer_query` for the in-progress record, then flush, then
close.  If the final `buffer_query` raises, the flush and the closes
are skipped (statements after a raise inside `finally` do not run). -/
def dayFinally (st : DState) (cq : Option Query) : Bool × DState :=
  match cq with
  | some q =>
    match bufferQuery q st with
    | none => (true, st)
    | some s1 => (false, closeAll (flushBuffers s1))
  | none => (false, closeAll (flushBuffers st))

/-- Outcome of a whole `parse` call: crash flag and final state. -/
structure DayOutcome where
  crashed : Bool
  st : DState
deriving DecidableEq, Repr

/-- `PostgresLogParser.parse` on the sequence of lines that the input
stream delivers before ending (an input that fails partway through
simply delivers a shorter list; the `finally` block runs in all cases). -/
def dayRun (lines : List Str) : DayOutcome :=
  match dayLoop lines (initD, none) with
  | (c1, st, cq) =>
    match dayFinally st cq with
    | (c2, st2) => ⟨c1 || c2, st2⟩

/-! ### Cached normalisation and the daily summary -/

/-- The normalisation cache `self.sql_cache` (insertion-ordered dict). -/
abbrev Cache := List (Str × Str)

/-- Dict lookup in the cache. -/
def lookupC : Cache → Str → Option Str
  | [], _ => none
  | (k, v) :: rest, s => if k = s then some v else lookupC rest s

/-- `PostgresLogParser.normalize_sql` (`dayparserz.py` lines 94-104):
return the cached value on a hit, otherwise compute the four
substitution passes and insert the result. -/
def normalize_sql (cache : Cache) (sql : Str) : Str × Cache :=
  match lookupC cache sql with
  | some v => (v, cache)
  | none => (normalizeSqlPure sql, cache ++ [(sql, normalizeSqlPure sql)])

/-- `line.split(' | ', 1)`: split at the first occurrence of the
separator; `none` models a result of fewer than two parts. -/
def splitBar : Str → Option (Str × Str)
  | [] => none
  | c :: rest =>
    if (c :: rest).take 3 = [' ', '|', ' '] then some ([], rest.drop 2)
    else
      match splitBar rest with
      | some (a, b) => some (c :: a, b)
      | none => none

/-- The per-line body of `generate_daily_summary` (`dayparserz.py`
lines 113-131): split on `' | '`, skip short lines, strip and
normalise the body through the shared cache, then take the first token
of the timestamp as the day key (skipping on IndexError). -/
def scanSummaryLine (acc : Cache × List (Str × Str)) (line : Str) : Cache × List (Str × Str) :=
  match splitBar line with
  | none => acc
  | some (ts, sqlRaw) =>
    let sql := stripWS sqlRaw
    let (norm, cache2) :=
      match lookupC acc.1 sql with
      | some v => (v, acc.1)
      | none => normalize_sql acc.1 sql
    match firstTok ts with
    | none => (cache2, acc.2)
    | some dateKey => (cache2, acc.2 ++ [(dateKey, norm)])

/-- `glob.glob(f"*_{date}.log")` over the files this run created:
the names opened by the writer whose suffix is `_<date>.log`. -/
def globDate (opened : List Str) (d : Str) : List Str :=
  opened.filter (fun f => List.isSuffixOf ('_' :: d ++ ".log".data) f)

/-- The scan of `generate_daily_summary` over all observed dates and
their files, producing the `(date_key, normalized_sql)` occurrences in
visit order together with the final cache. -/
def summaryScan (st : DState) (cache0 : Cache) : Cache × List (Str × Str) :=
  st.dates.foldl
    (fun acc d =>
      (globDate st.opened d).foldl
        (fun acc2 f => (getA st.contents f []).foldl scanSummaryLine acc2)
        acc)
    (cache0, [])

/-- Occurrences of one `(day, normalized)` pair, the counter
`stats[date_key][normalized_sql]`. -/
def occCount (pairs : List (Str × Str)) (d s : Str) : Nat :=
  (pairs.filter (fun p => p.1 = d ∧ p.2 = s)).length

/-- Python `sorted` on strings: lexicographic by code point. -/
def sortStr (l : List Str) : List Str := List.insertionSort (· ≤ ·) l

/-- The ordered `(day, normalized, count)` triples written by
`generate_daily_summary` (`dayparserz.py` lines 133-136):
`for day in sorted(stats): for sql, count in sorted(stats[day].items())`.
Keys of `stats[day]` are distinct, so sorting the items equals sorting
the keys. -/
def summaryEntries (st : DState) (cache0 : Cache) : List (Str × Str × Nat) :=
  let pairs := (summaryScan st cache0).2
  (sortStr (pairs.map Prod.fst).dedup).flatMap
    (fun d =>
      (sortStr ((pairs.filter (fun p => p.1 = d)).map Prod.snd).dedup).map
        (fun s => (d, s, occCount pairs d s)))

/-- One written summary line:
`f"{day} | {sql} | выполнился {count} раз\n"`. -/
def renderEntry (e : Str × Str × Nat) : Str :=
  e.1 ++ " | ".data ++ e.2.1 ++ " | выполнился ".data ++ (Nat.repr e.2.2).data ++ " раз\n".data

/-- The full contents of `daily_summary.log` as written by one call of
`generate_daily_summary`. -/
def genSummary (st : DState) (cache0 : Cache) : List Str :=
  (summaryEntries st cache0).map renderEntry

/-! ### Model of the minute bucket label of `minparserz.py` -/

/-- Number of days of a month under the Gregorian rules used by
`datetime` (which validates the day against month and leap year). -/
def daysInMonth (y m : Nat) : Nat :=
  if m = 2 then (if (y % 4 = 0 ∧ y % 100 ≠ 0) ∨ y % 400 = 0 then 29 else 28)
  else if m = 4 ∨ m = 6 ∨ m = 9 ∨ m = 11 then 30
  else 31

/-- Value of a two-digit field. -/
def d2v (a b : Char) : Nat := (a.toNat - 48) * 10 + (b.toNat - 48)

/-- A parsed `datetime` as produced by
`datetime.strptime(ts_clean, "%Y-%m-%d %H:%M:%S")`. -/
structure DT where
  y : Nat
  mo : Nat
  d : Nat
  h : Nat
  mi : Nat
  s : Nat
deriving DecidableEq, Repr

/-- `datetime.strptime(cs, "%Y-%m-%d %H:%M:%S")` on the fixed-width
19-character shape (the only shape reachable from `timestamp[:19]` of
the timestamps this pipeline stores), including the range validation
performed by the `datetime` constructor (`MINYEAR ≤ y`, month 1-12,
day against the calendar, hour ≤ 23, minute ≤ 59, second ≤ 59). -/
def dtOfChars (y1 y2 y3 y4 m1 m2 d1 d2 h1 h2 n1 n2 e1 e2 : Char) : DT :=
  ⟨((y1.toNat - 48) * 10 + (y2.toNat - 48)) * 100 + d2v y3 y4,
   d2v m1 m2, d2v d1 d2, d2v h1 h2, d2v n1 n2, d2v e1 e2⟩

/-- The range validation of the `datetime` constructor. -/
def validDT (dt : DT) : Prop :=
  1 ≤ dt.y ∧ 1 ≤ dt.mo ∧ dt.mo ≤ 12 ∧ 1 ≤ dt.d ∧ dt.d ≤ daysInMonth dt.y dt.mo ∧
    dt.h ≤ 23 ∧ dt.mi ≤ 59 ∧ dt.s ≤ 59

instance (dt : DT) : Decidable (validDT dt) := by
  unfold validDT
  infer_instance

def parseFix19 (cs : Str) : Option DT :=
  match cs with
  | [y1, y2, y3, y4, s1, m1, m2, s2, d1, d2, s3, h1, h2, s4, n1, n2, s5, e1, e2] =>
    if y1.isDigit ∧ y2.isDigit ∧ y3.isDigit ∧ y4.isDigit ∧ m1.isDigit ∧ m2.isDigit ∧
       d1.isDigit ∧ d2.isDigit ∧ h1.isDigit ∧ h2.isDigit ∧ n1.isDigit ∧ n2.isDigit ∧
       e1.isDigit ∧ e2.isDigit ∧ s1 = '-' ∧ s2 = '-' ∧ s3 = ' ' ∧ s4 = ':' ∧ s5 = ':' then
      if validDT (dtOfChars y1 y2 y3 y4 m1 m2 d1 d2 h1 h2 n1 n2 e1 e2) then
        some (dtOfChars y1 y2 y3 y4 m1 m2 d1 d2 h1 h2 n1 n2 e1 e2)
      else none
    else none
  | _ => none

/-- The decimal digit character of `k < 10`. -/
def digitChar (k : Nat) : Char := Char.ofNat (48 + k)

/-- Zero-padded two-digit rendering of `strftime`. -/
def pad2 (n : Nat) : Str := [digitChar (n / 10), digitChar (n % 10)]

/-- Rendering of `strftime("%Y")` under CPython on Linux/glibc: the
year as a plain decimal number with NO zero padding — year 999 renders
as `999`, year 5 as `5` — unlike the zero-padded two-digit fields. -/
def yearStr (n : Nat) : Str := (Nat.repr n).data

/-- The minute bucket label of `generate_combined_summary`
(`minparserz.py` lines 298-303): `timestamp[:19]`, `strptime`,
`replace(second=0)`, `strftime("%Y-%m-%d %H:%M")`; `none` models the
ValueError path (line skipped). -/
def minuteLabel (ts : Str) : Option Str :=
  match parseFix19 (ts.take 19) with
  | none => none
  | some dt => some (yearStr dt.y ++ '-' :: pad2 dt.mo ++ '-' :: pad2 dt.d ++ ' ' :: pad2 dt.h ++ ':' :: pad2 dt.mi)

/-! ### Model of `parser.py` -/

/-- Fuel-indexed body of the comment stripper. -/
def plStripCommentF : Nat → Str → Str
  | _, [] => []
  | 0, s => s
  | f + 1, '-' :: '-' :: rest => plStripCommentF f (rest.dropWhile (· ≠ '\n'))
  | f + 1, c :: rest => c :: plStripCommentF f rest

/-- `re.sub(r"--.*", "", q)` of `normalize_query`: delete from each
`--` to the end of its line (`.` does not cross a newline). -/
def plStripComment (s : Str) : Str := plStripCommentF s.length s

/-- Lazy `.*?'` after an opening quote of pattern `'.*?'`: the first
closing quote, failing on a newline (which `.` cannot match) or the
end of input. -/
def plQuoteEnd : Str → Option Str
  | [] => none
  | c :: rest =>
    if c = quoteChar then some rest
    else if c = '\n' then none
    else plQuoteEnd rest

theorem plQuoteEnd_length : ∀ (cs r : Str), plQuoteEnd cs = some r → r.length < cs.length := by
  intro cs
  induction cs with
  | nil => intro r h; exact nomatch h
  | cons c rest ih =>
    intro r h
    simp only [plQuoteEnd] at h
    by_cases hq : c = quoteChar
    · rw [if_pos hq] at h
      cases h
      simp
    · rw [if_neg hq] at h
      by_cases hn : c = '\n'
      · rw [if_pos hn] at h; exact nomatch h
      · rw [if_neg hn] at h
        have := ih r h
        simp only [List.length_cons]
        omega

/-- Fuel-indexed body of the lazy-quote substitution. -/
def plSubQuoteF : Nat → Str → Str
  | _, [] => []
  | 0, s => s
  | f + 1, c :: rest =>
    if c = quoteChar then
      match plQuoteEnd rest with
      | some r => '?' :: plSubQuoteF f r
      | none => c :: plSubQuoteF f rest
    else c :: plSubQuoteF f rest

/-- `re.sub(r"'.*?'", "?", q)` of `normalize_query`. -/
def plSubQuote (s : Str) : Str := plSubQuoteF s.length s

/-- `normalize_query` of `parser.py` (lines 5-10): strip comments,
replace quoted strings by `?`, replace integers (`\b\d+\b`) by `?`,
then strip. -/
def plNormalize (q : Str) : Str :=
  stripWS (subNumWith ['?'] false (plSubQuote (plStripComment q)))

/-- Anchored match of `(\d{4}-\d{2}-\d{2} \d{2}:\d{2})`, returning the
matched text. -/
def plTsAt (cs : Str) : Option Str := do
  let (y, r1) ← digitsExact 4 cs
  let r2 ← litChar '-' r1
  let (mo, r3) ← digitsExact 2 r2
  let r4 ← litChar '-' r3
  let (dd, r5) ← digitsExact 2 r4
  let r6 ← litChar ' ' r5
  let (hh, r7) ← digitsExact 2 r6
  let r8 ← litChar ':' r7
  let (mi, _) ← digitsExact 2 r8
  some (y ++ '-' :: mo ++ '-' :: dd ++ ' ' :: hh ++ ':' :: mi)

/-- `timestamp_regex.search(line)`: the first position where the
pattern matches. -/
def plTsSearch : Str → Option Str
  | [] => none
  | c :: t =>
    match plTsAt (c :: t) with
    | some m => some m
    | none => plTsSearch t

/-- The literal marker `"LOG:  statement: "` of `process_line`. -/
def plMarker : Str := "LOG:  statement: ".data

/-- `line[line.find(pat) + len(pat):]`: the text after the first
occurrence of `pat`. -/
def afterFirst (pat : Str) : Str → Option Str
  | [] => if pat.isEmpty then some [] else none
  | c :: t =>
    if pat.isPrefixOf (c :: t) then some ((c :: t).drop pat.length)
    else afterFirst pat t

/-- The Python substring test `pat in line`. -/
def containsSub (pat : Str) : Str → Bool
  | [] => pat.isEmpty
  | c :: t => pat.isPrefixOf (c :: t) || containsSub pat t

/-- A key of the `parser.py` counter: `(current_time, normalized)`. -/
abbrev PLKey := Option Str × Str

/-- `counter[key] += 1` on a `defaultdict(int)` (insertion-ordered). -/
def bumpCounter (m : List (PLKey × Nat)) (k : PLKey) : List (PLKey × Nat) :=
  match m with
  | [] => [(k, 1)]
  | (k0, v) :: rest => if k0 = k then (k0, v + 1) :: rest else (k0, v) :: bumpCounter rest k

/-- The caller-visible state of `parser.py`: the (mutable, shared)
counter and `current_query` list.  The variable `current_time` of
`parse_log_in_chunks` is NOT part of this state on purpose: strings
are immutable in Python, so the assignment to `current_time` inside
`process_line` never reaches the caller; the caller always passes its
own, never-reassigned value. -/
structure PLS where
  counter : List (PLKey × Nat)
  query : List Str
deriving DecidableEq, Repr

/-- `finalize_query` (`parser.py` lines 50-55): join the fragments,
normalise, bump the counter at `(current_time, normalized)`, clear. -/
def plFinalize (st : PLS) (time : Option Str) : PLS :=
  if st.query.isEmpty then st
  else
    { counter := bumpCounter st.counter (time, plNormalize (List.intercalate [' '] st.query)),
      query := [] }

/-- `process_line` (`parser.py` lines 46-59) as seen by its caller:
the returned state updates the shared `counter` and `current_query`;
the local rebinding of `current_time` is discarded. -/
def plProcessLine (st : PLS) (time : Option Str) (line : Str) : PLS :=
  let tm := plTsSearch line
  if containsSub plMarker line ∧ tm.isSome then
    let st1 := if st.query.isEmpty then st else plFinalize st time
    { st1 with query := [stripWS ((afterFirst plMarker line).getD [])] }
  else if tm.isSome ∧ ¬st.query.isEmpty then plFinalize st time
  else if ¬st.query.isEmpty then { st with query := st.query ++ [stripWS line] }
  else st

/-- `buffer.split("\n")`: always non-empty, last element is the text
after the last newline. -/
def splitNl : Str → List Str
  | [] => [[]]
  | c :: rest =>
    if c = '\n' then [] :: splitNl rest
    else
      match splitNl rest with
      | l :: ls => (c :: l) :: ls
      | [] => [[c]]

/-- State of the chunked reader: the parser state, the carry buffer
(text after the last seen newline) and a ghost trace of every string
passed to `process_line` as a complete line. -/
structure ChunkSt where
  inner : PLS
  buffer : Str
  trace : List Str
deriving DecidableEq, Repr

/-- One iteration of the `while True` loop of `parse_log_in_chunks`
(lines 21-31): append the chunk to the buffer, split on newlines, pop
the final (possibly incomplete) fragment back into the buffer, process
every complete line with the caller's (never-updated) `current_time`. -/
def plFeedChunk (st : ChunkSt) (ch : Str) : ChunkSt :=
  let parts := splitNl (st.buffer ++ ch)
  { inner := parts.dropLast.foldl (fun s l => plProcessLine s none l) st.inner,
    buffer := parts.getLastD [],
    trace := st.trace ++ parts.dropLast }

/-- The chunk loop; an empty chunk means end of file (`break`). -/
def plConsume : List Str → ChunkSt → ChunkSt
  | [], st => st
  | ch :: rest, st => if ch.isEmpty then st else plConsume rest (plFeedChunk st ch)

/-- Result of a `parse_log_in_chunks` call: the final counter and the
trace of processed lines. -/
structure PLRes where
  counter : List (PLKey × Nat)
  trace : List Str
deriving DecidableEq, Repr

/-- The epilogue of `parse_log_in_chunks` (lines 33-39): process the
remaining buffer if non-empty, then finalize a pending query. -/
def plFinish (st : ChunkSt) : PLRes :=
  let st1 :=
    if st.buffer.isEmpty then st
    else { st with inner := plProcessLine st.inner none st.buffer, trace := st.trace ++ [st.buffer] }
  let inner2 := if st1.inner.query.isEmpty then st1.inner else plFinalize st1.inner none
  ⟨inner2.counter, st1.trace⟩

/-- `parse_log_in_chunks` on the chunk sequence the file delivers
(`file.read(chunk_size)` returns non-empty chunks until end of file). -/
def parseLogInChunks (chunks : List Str) : PLRes :=
  plFinish (plConsume chunks ⟨⟨[], []⟩, [], []⟩)

/-- Modelled from the spec: the whole-input, line-by-line reference
reading (section 6 of the spec: read line-by-line, never treating a
fragment as a complete line).  Every complete line of the text is
processed in order, then the trailing fragment after the last newline,
then the pending query is finalized. -/
def plLineByLine (text : Str) : PLRes :=
  let parts := splitNl text
  let st : PLS := parts.dropLast.foldl (fun s l => plProcessLine s none l) ⟨[], []⟩
  let tl := parts.getLastD []
  let st1 := if tl.isEmpty then st else plProcessLine st none tl
  let st2 := if st1.query.isEmpty then st1 else plFinalize st1 none
  ⟨st2.counter, parts.dropLast ++ (if tl.isEmpty then [] else [tl])⟩

/-! ### Instrumented cache for the memoisation claims -/

/-- `normalize_sql` instrumented with a flag telling whether the value
was computed (a miss) rather than served from the cache. -/
def normalize_sqlT (cache : Cache) (sql : Str) : Str × Cache × Bool :=
  match lookupC cache sql with
  | some v => (v, cache, false)
  | none => (normalizeSqlPure sql, cache ++ [(sql, normalizeSqlPure sql)], true)

/-- The trace of a sequence of `normalize_sql` calls:
`(body, returned value, was computed)` per call. -/
def normTrace : List Str → Cache → List (Str × Str × Bool)
  | [], _ => []
  | s :: ss, c =>
    match normalize_sqlT c s with
    | (v, c2, b) => (s, v, b) :: normTrace ss c2

/-! ### Claim C1 -/

theorem scanLit_cons_ne (c : Char) (l : Str) (hc : c ≠ quoteChar) :
    scanLit (c :: l) = scanLit l := by
  cases l with
  | nil => rw [scanLit.eq_3, if_neg hc]
  | cons x xs => rw [scanLit.eq_2, if_neg hc]

theorem scanLit_simple (w v : Str) (hw : quoteChar ∉ w) (hv : v.head? ≠ some quoteChar) :
    scanLit (w ++ quoteChar :: v) = some v := by
  induction w with
  | nil =>
    cases v with
    | nil => rfl
    | cons c2 v2 =>
      have hc2 : c2 ≠ quoteChar := by
        intro h; exact hv (by simp [h])
      simp only [List.nil_append]
      rw [scanLit.eq_2, if_pos rfl, if_neg hc2]
  | cons c w2 ih =>
    have hc : c ≠ quoteChar := fun h => hw (by simp [h])
    have hw2 : quoteChar ∉ w2 := fun h => hw (by simp [h])
    rw [List.cons_append, scanLit_cons_ne c _ hc]
    exact ih hw2

theorem subStrLit_cons_ne (c : Char) (l : Str) (hc : c ≠ quoteChar) :
    subStrLit (c :: l) = c :: subStrLit l := by
  show subStrLitF (l.length + 1) (c :: l) = c :: subStrLitF l.length l
  rw [subStrLitF.eq_3, if_neg hc]

theorem subStrLit_open (rest r : Str) (hsc : scanLit rest = some r) :
    subStrLit (quoteChar :: rest) = strTok ++ subStrLit r := by
  show subStrLitF (rest.length + 1) (quoteChar :: rest) = strTok ++ subStrLitF r.length r
  rw [subStrLitF.eq_3, if_pos rfl, hsc]
  show strTok ++ subStrLitF rest.length r = strTok ++ subStrLitF r.length r
  rw [subStrLitF_irrel rest.length r.length r (le_of_lt (scanLit_length rest r hsc)) (le_refl _)]

theorem subStrLit_literal (u w v : Str) (hu : quoteChar ∉ u) (hw : quoteChar ∉ w)
    (hv : v.head? ≠ some quoteChar) :
    subStrLit (u ++ quoteChar :: (w ++ quoteChar :: v)) = u ++ strTok ++ subStrLit v := by
  induction u with
  | nil =>
    simp only [List.nil_append]
    rw [subStrLit_open _ _ (scanLit_simple w v hw hv)]
  | cons c u2 ih =>
    have hc : c ≠ quoteChar := fun h => hu (by simp [h])
    have hu2 : quoteChar ∉ u2 := fun h => hu (by simp [h])
    rw [List.cons_append, subStrLit_cons_ne c _ hc, ih hu2]
    simp

/-- Claim C1: `normalize_sql` replaces single-quote string literals by
`$str` before the numeric passes run, then replaces decimal numbers
and remaining standalone integers by `$num`, then collapses whitespace
and trims; in particular, on a body containing a simple quoted literal
the numeric passes only ever see `$str` in its place, so digits inside
the quoted string are never replaced by `$num`. -/
theorem C1_strings_before_numbers (u w v : Str)
    (hu : quoteChar ∉ u) (hw : quoteChar ∉ w) (hv : v.head? ≠ some quoteChar) :
    normalizeSqlPure (u ++ quoteChar :: (w ++ quoteChar :: v)) =
      collapseWS (subNum (subFloat (u ++ strTok ++ subStrLit v))) := by
  unfold normalizeSqlPure
  rw [subStrLit_literal u w v hu hw hv]

/-- Witness for C1 at a concrete statement body containing digits
inside a quoted literal. -/
theorem C1_strings_before_numbers_witness :
    quoteChar ∉ "WHERE name = ".data ∧ quoteChar ∉ "ab 12".data ∧
    (" AND id = 7".data : Str).head? ≠ some quoteChar ∧
    normalizeSqlPure ("WHERE name = ".data ++ quoteChar :: ("ab 12".data ++ quoteChar :: " AND id = 7".data)) =
      collapseWS (subNum (subFloat ("WHERE name = ".data ++ strTok ++ subStrLit " AND id = 7".data))) :=
  ⟨by decide, by decide, by decide,
   C1_strings_before_numbers _ _ _ (by decide) (by decide) (by decide)⟩

/-! ### Claim C4 -/

def c4line1 : Str := "2024-01-01 10:00:01 LOG:  statement: SELECT * FROM users WHERE id = 5;".data

def c4line2 : Str := "2024-01-01 10:00:02 LOG:  statement: SELECT * FROM users WHERE id = 9;".data

def c4text : Str := c4line1 ++ '\n' :: c4line2

/-- Claim C4 concerns `parser.py`: the claim says each finalized record
is tagged with the timestamp of its initiating line.  The code never
propagates the timestamp: `process_line` rebinds its local
`current_time` (strings are passed by value), so the caller of
`parse_log_in_chunks` always passes `None` and every counter key gets
`None` as its time — here both records key on `none` although their
initiating lines match the timestamp pattern at `2024-01-01 10:00`. -/
theorem C4_records_not_tagged_with_timestamp :
    (parseLogInChunks [c4text]).counter =
      [((none, "SELECT * FROM users WHERE id = ?;".data), 2)] ∧
    plTsSearch c4line1 = some "2024-01-01 10:00".data ∧
    plTsSearch c4line2 = some "2024-01-01 10:00".data := by
  refine ⟨by decide, by decide, by decide⟩

/-! ### Claim C7 -/

theorem lookupC_append_self (c : Cache) (s v : Str) (h : lookupC c s = none) :
    lookupC (c ++ [(s, v)]) s = some v := by
  induction c with
  | nil => simp [lookupC]
  | cons p rest ih =>
    obtain ⟨k0, v0⟩ := p
    simp only [lookupC, List.cons_append] at h ⊢
    by_cases hk : k0 = s
    · rw [if_pos hk] at h; exact nomatch h
    · rw [if_neg hk] at h ⊢; exact ih h

theorem lookupC_append_keeps (c : Cache) (s v : Str) (p : Str × Str)
    (h : lookupC c s = some v) : lookupC (c ++ [p]) s = some v := by
  induction c with
  | nil => exact nomatch h
  | cons q rest ih =>
    obtain ⟨k0, v0⟩ := q
    simp only [lookupC, List.cons_append] at h ⊢
    by_cases hk : k0 = s
    · rw [if_pos hk] at h ⊢; exact h
    · rw [if_neg hk] at h ⊢; exact ih h

/-- Well-formedness of the cache: every stored value is the pure
normalisation of its key. -/
def cacheWF (c : Cache) : Prop := ∀ p ∈ c, p.2 = normalizeSqlPure p.1

theorem lookupC_WF (c : Cache) (s v : Str) (hwf : cacheWF c) (h : lookupC c s = some v) :
    v = normalizeSqlPure s := by
  induction c with
  | nil => exact nomatch h
  | cons q rest ih =>
    obtain ⟨k0, v0⟩ := q
    simp only [lookupC] at h
    by_cases hk : k0 = s
    · rw [if_pos hk] at h
      have hv0 : v0 = normalizeSqlPure k0 := hwf (k0, v0) (by simp)
      injection h with h2
      rw [← h2, hv0, hk]
    · rw [if_neg hk] at h
      exact ih (fun p hp => hwf p (by simp [hp])) h

theorem cacheWF_append (c : Cache) (s : Str) (hwf : cacheWF c) :
    cacheWF (c ++ [(s, normalizeSqlPure s)]) := by
  intro p hp
  rcases List.mem_append.mp hp with h | h
  · exact hwf p h
  · simp only [List.mem_singleton] at h
    subst h
    rfl

theorem normTrace_values (reqs : List Str) :
    ∀ c, cacheWF c → ∀ e ∈ normTrace reqs c, e.2.1 = normalizeSqlPure e.1 := by
  induction reqs with
  | nil => intro c _ e he; exact nomatch he
  | cons s ss ih =>
    intro c hwf e he
    simp only [normTrace, normalize_sqlT] at he
    cases hl : lookupC c s with
    | some v =>
      rw [hl] at he
      simp only [List.mem_cons] at he
      rcases he with he | he
      · subst he; exact lookupC_WF c s v hwf hl
      · exact ih c hwf e he
    | none =>
      rw [hl] at he
      simp only [List.mem_cons] at he
      rcases he with he | he
      · subst he; rfl
      · exact ih _ (cacheWF_append c s hwf) e he

/-- Number of calls of the trace that had to compute body `t`. -/
def missCount (tr : List (Str × Str × Bool)) (t : Str) : Nat :=
  (tr.filter (fun e => e.1 == t && e.2.2)).length

theorem normTrace_no_miss (reqs : List Str) :
    ∀ c t v, lookupC c t = some v → missCount (normTrace reqs c) t = 0 := by
  induction reqs with
  | nil => intro c t v _; rfl
  | cons s ss ih =>
    intro c t v h
    simp only [normTrace, normalize_sqlT]
    cases hl : lookupC c s with
    | some v2 =>
      simp only [missCount, List.filter]
      simp only [Bool.and_false, Bool.and_eq_true, beq_iff_eq]
      exact ih c t v h
    | none =>
      have hst : ¬(s = t) := by
        intro he; subst he; rw [hl] at h; exact nomatch h
      simp only [missCount, List.filter]
      have : (s == t && true) = false := by
        simp [hst]
      rw [this]
      exact ih (c ++ [(s, normalizeSqlPure s)]) t v (lookupC_append_keeps c t v _ h)

theorem normTrace_miss_le_one (reqs : List Str) :
    ∀ c t, missCount (normTrace reqs c) t ≤ 1 := by
  induction reqs with
  | nil => intro c t; simp [normTrace, missCount, List.filter]
  | cons s ss ih =>
    intro c t
    simp only [normTrace, normalize_sqlT]
    cases hl : lookupC c s with
    | some v =>
      simp only [missCount, List.filter, Bool.and_false]
      exact ih c t
    | none =>
      by_cases hst : s = t
      · subst hst
        simp only [missCount, List.filter, beq_self_eq_true, Bool.and_true, Bool.true_and]
        have h0 := normTrace_no_miss ss (c ++ [(s, normalizeSqlPure s)]) s
          (normalizeSqlPure s) (lookupC_append_self c s _ hl)
        simp only [missCount] at h0
        simp [List.length_cons, h0]
      · have : (s == t && true) = false := by simp [hst]
        simp only [missCount, List.filter, this]
        exact ih (c ++ [(s, normalizeSqlPure s)]) t

/-- Claim C7: calling `normalize_sql` twice on the same body yields the
same value, leaves the cache unchanged on the second call, and the
second call is a cache hit (no recomputation); over a whole run started
with the empty cache, every returned value equals the pure
normalisation of its body (so a hit returns exactly what the original
miss computed) and each distinct body is computed at most once. -/
theorem C7_cache_memoisation (c : Cache) (s : Str) (reqs : List Str) :
    normalize_sqlT (normalize_sqlT c s).2.1 s =
      ((normalize_sqlT c s).1, (normalize_sqlT c s).2.1, false) ∧
    (∀ e ∈ normTrace reqs [], e.2.1 = normalizeSqlPure e.1) ∧
    (∀ t, missCount (normTrace reqs []) t ≤ 1) := by
  refine ⟨?_, ?_, ?_⟩
  · cases hl : lookupC c s with
    | some v =>
      simp only [normalize_sqlT, hl]
    | none =>
      simp only [normalize_sqlT, hl, lookupC_append_self c s _ hl]
  · exact normTrace_values reqs [] (fun p hp => nomatch hp)
  · intro t
    exact normTrace_miss_le_one reqs [] t

/-- Witness for C7 at a concrete two-call run on the body `id = 7`. -/
theorem C7_cache_memoisation_witness :
    ("id = 7".data, normalizeSqlPure "id = 7".data, true) ∈
      normTrace ["id = 7".data, "id = 7".data] [] ∧
    normalizeSqlPure "id = 7".data = normalizeSqlPure "id = 7".data :=
  ⟨by decide,
   (C7_cache_memoisation [] "id = 7".data ["id = 7".data, "id = 7".data]).2.1
     ("id = 7".data, normalizeSqlPure "id = 7".data, true) (by decide)⟩

/-! ### Claim C5 -/

/-- The classification table as the spec states it, as a function of
the upper-cased first token. -/
def opOfKw (w : Str) : Str :=
  if w = "WITH".data then "SELECT".data
  else if w = "SELECT".data ∨ w = "INSERT".data ∨ w = "UPDATE".data ∨ w = "DELETE".data then w
  else "OTHER".data

/-- Claim C5 counterexample: a finalized record whose semicolon-stripped
body is non-empty but all whitespace is not classified as OTHER — the
`split()[0]` raises IndexError instead.  Such a record is reachable: a
`statement: ;` line followed by the continuation line `;` produces the
body `" ;"`, and the whole `parse` run crashes on it. -/
theorem C5_counterexample :
    classifyOp (rstripSemi (' ' :: [';'])) = none ∧
    rstripSemi (' ' :: [';']) ≠ [] ∧
    (dayRun ["2024-01-01 10:00:00 LOG:  statement: ;".data, [';']]).crashed = true :=
  ⟨by decide, by decide, by decide⟩

theorem classifyOp_of_tok (sql t : Str) (ts : List Str) (h : pySplit sql = t :: ts) :
    classifyOp sql = some (opOfKw (t.map Char.toUpper)) := by
  have hne : sql.isEmpty = false := by
    cases sql with
    | nil => simp [pySplit, pySplitAux] at h
    | cons c r => rfl
  simp only [classifyOp, hne, Bool.false_eq_true, if_false, firstTok, h, List.head?]
  unfold opOfKw
  split_ifs <;> rfl

/-- Claim C5 (amended): classification takes the first
whitespace-delimited token of the semicolon-stripped body,
case-insensitively, mapping WITH to SELECT, each of SELECT, INSERT,
UPDATE, DELETE to itself and any other first token to OTHER; an empty
body maps to OTHER; a body whose first token is `with` in any letter
case classifies exactly as one whose first token is `select`.  (The
amendment: a non-empty body with no token at all — all whitespace —
makes classification raise IndexError instead of yielding OTHER.) -/
theorem C5_classification (sql : Str) :
    (sql = [] → classifyOp sql = some "OTHER".data) ∧
    (∀ t ts, pySplit sql = t :: ts → classifyOp sql = some (opOfKw (t.map Char.toUpper))) ∧
    (∀ sql2 t ts t2 ts2, pySplit sql = t :: ts → t.map Char.toUpper = "WITH".data →
       pySplit sql2 = t2 :: ts2 → t2.map Char.toUpper = "SELECT".data →
       classifyOp sql = classifyOp sql2) := by
  refine ⟨?_, ?_, ?_⟩
  · intro h; subst h; rfl
  · intro t ts h; exact classifyOp_of_tok sql t ts h
  · intro sql2 t ts t2 ts2 h1 hw h2 hs
    rw [classifyOp_of_tok sql t ts h1, classifyOp_of_tok sql2 t2 ts2 h2, hw, hs]
    rfl

/-- Witness for C5 on the bodies `wiTH x AS q SELECT 1` and `select 2`. -/
theorem C5_classification_witness :
    pySplit "wiTH x AS q SELECT 1".data =
      "wiTH".data :: ["x".data, "AS".data, "q".data, "SELECT".data, "1".data] ∧
    classifyOp "wiTH x AS q SELECT 1".data = some (opOfKw ("wiTH".data.map Char.toUpper)) ∧
    classifyOp "wiTH x AS q SELECT 1".data = classifyOp "select 2".data :=
  ⟨by decide,
   (C5_classification "wiTH x AS q SELECT 1".data).2.1 "wiTH".data
     ["x".data, "AS".data, "q".data, "SELECT".data, "1".data] (by decide),
   (C5_classification "wiTH x AS q SELECT 1".data).2.2 "select 2".data
     "wiTH".data ["x".data, "AS".data, "q".data, "SELECT".data, "1".data]
     "select".data ["2".data] (by decide) (by decide) (by decide) (by decide)⟩

/-! ### Claim C2 -/

theorem dayStep_digit (st : DState) (q : Query) (line : Str)
    (h1 : stripWS line ≠ [])
    (h2 : ((stripWS line).head?.map Char.isDigit).getD false = true) :
    dayStep (st, some q) line =
      (bufferQuery q st).map (fun s1 => (s1, extract_query (stripWS line))) := by
  have hne : (stripWS line).isEmpty = false := by
    cases h : stripWS line with
    | nil => exact absurd h h1
    | cons c r => rfl
  simp only [dayStep, hne, Bool.false_eq_true, if_false, h2, if_true]
  cases bufferQuery q st <;> rfl

theorem dayStep_append (st : DState) (q : Query) (line : Str)
    (h1 : stripWS line ≠ [])
    (h2 : ((stripWS line).head?.map Char.isDigit).getD false = false) :
    dayStep (st, some q) line = some (st, some ⟨q.ts, q.sql ++ ' ' :: stripWS line⟩) := by
  have hne : (stripWS line).isEmpty = false := by
    cases h : stripWS line with
    | nil => exact absurd h h1
    | cons c r => rfl
  simp only [dayStep, hne, Bool.false_eq_true, if_false, h2]

theorem dayLoop_continuations (cs : List Str) :
    ∀ (st : DState) (q : Query),
      (∀ c ∈ cs, stripWS c ≠ [] ∧ ((stripWS c).head?.map Char.isDigit).getD false = false) →
      dayLoop cs (st, some q) =
        (false, st, some ⟨q.ts, q.sql ++ (cs.map (fun c => ' ' :: stripWS c)).join⟩) := by
  induction cs with
  | nil => intro st q _; simp [dayLoop]
  | cons c cs ih =>
    intro st q h
    obtain ⟨h1, h2⟩ := h c (by simp)
    simp only [dayLoop, dayStep_append st q c h1 h2]
    rw [ih st ⟨q.ts, q.sql ++ ' ' :: stripWS c⟩ (fun d hd => h d (by simp [hd]))]
    simp

/-- Claim C2 counterexample: while accumulating, the non-empty line
`9 bottles` has a leading digit but does not match the timestamp
pattern (`extract_query` rejects it); the claim says every such line
is appended to the body leaving the assembler accumulating, but the
code finalizes (buffers) the current record and resets to idle. -/
theorem C2_counterexample :
    stripWS "9 bottles".data ≠ [] ∧
    extract_query (stripWS "9 bottles".data) = none ∧
    (dayLoop ["2024-01-01 09:00:00 LOG:  statement: SELECT 1;".data, "9 bottles".data]
        (initD, none)).2.2 = none ∧
    (dayLoop ["2024-01-01 09:00:00 LOG:  statement: SELECT 1;".data, "9 bottles".data]
        (initD, none)).2.1.buffers ≠ [] :=
  ⟨by decide, by decide, by decide, by decide⟩

/-- Claim C2 (amended): while accumulating, ANY non-empty line whose
first character is a digit finalizes (buffers) the current record and
restarts from the extraction result of the new line; every non-empty
line without a leading digit is appended to the body with a separating
space, leaving the assembler accumulating; consequently a record
followed by continuation lines accumulates the space-joined
concatenation of all its stripped fragments. -/
theorem C2_assembler (st : DState) (q : Query) (line : Str) :
    (stripWS line ≠ [] → ((stripWS line).head?.map Char.isDigit).getD false = true →
       dayStep (st, some q) line =
         (bufferQuery q st).map (fun s1 => (s1, extract_query (stripWS line)))) ∧
    (stripWS line ≠ [] → ((stripWS line).head?.map Char.isDigit).getD false = false →
       dayStep (st, some q) line = some (st, some ⟨q.ts, q.sql ++ ' ' :: stripWS line⟩)) ∧
    (∀ cs : List Str,
       (∀ c ∈ cs, stripWS c ≠ [] ∧ ((stripWS c).head?.map Char.isDigit).getD false = false) →
       dayLoop cs (st, some q) =
         (false, st, some ⟨q.ts, q.sql ++ (cs.map (fun c => ' ' :: stripWS c)).join⟩)) :=
  ⟨dayStep_digit st q line, dayStep_append st q line,
   fun cs h => dayLoop_continuations cs st q h⟩

/-- Witness for C2: a two-fragment continuation of a concrete record. -/
theorem C2_assembler_witness :
    stripWS "  WHERE id = 9".data ≠ [] ∧
    ((stripWS "  WHERE id = 9".data).head?.map Char.isDigit).getD false = false ∧
    dayLoop ["  WHERE id = 9".data, "ORDER BY 1".data]
        (initD, some ⟨"2024-01-01 10:00:02".data, "SELECT * FROM users".data⟩) =
      (false, initD, some ⟨"2024-01-01 10:00:02".data,
        "SELECT * FROM users".data ++
          (["  WHERE id = 9".data, "ORDER BY 1".data].map (fun c => ' ' :: stripWS c)).join⟩) :=
  ⟨by decide, by decide,
   (C2_assembler initD ⟨"2024-01-01 10:00:02".data, "SELECT * FROM users".data⟩ []).2.2
     ["  WHERE id = 9".data, "ORDER BY 1".data] (by decide)⟩

/-! ### Claim C8 -/

theorem isDigit_toNat (c : Char) (h : c.isDigit = true) : 48 ≤ c.toNat ∧ c.toNat ≤ 57 := by
  simp only [Char.isDigit, ge_iff_le, Bool.and_eq_true, decide_eq_true_eq] at h
  exact h

theorem digitChar_reconstruct (c : Char) (h : c.isDigit = true) :
    digitChar (c.toNat - 48) = c := by
  obtain ⟨h1, h2⟩ := isDigit_toNat c h
  unfold digitChar
  have he : 48 + (c.toNat - 48) = c.toNat := by omega
  rw [he, Char.ofNat_toNat]

theorem pad2_reconstruct (a b : Char) (ha : a.isDigit = true) (hb : b.isDigit = true) :
    pad2 (d2v a b) = [a, b] := by
  obtain ⟨ha1, ha2⟩ := isDigit_toNat a ha
  obtain ⟨hb1, hb2⟩ := isDigit_toNat b hb
  unfold pad2 d2v
  have h1 : ((a.toNat - 48) * 10 + (b.toNat - 48)) / 10 = a.toNat - 48 := by omega
  have h2 : ((a.toNat - 48) * 10 + (b.toNat - 48)) % 10 = b.toNat - 48 := by omega
  rw [h1, h2, digitChar_reconstruct a ha, digitChar_reconstruct b hb]

theorem natDigitChar_eq (k : Nat) (h : k < 10) : Nat.digitChar k = digitChar k := by
  interval_cases k <;> decide

theorem toDigitsCore_emit (f n : Nat) (ds : List Char) (h9 : n < 10) :
    Nat.toDigitsCore 10 (f + 1) n ds = Nat.digitChar n :: ds := by
  show (if n / 10 = 0 then (n % 10).digitChar :: ds
    else Nat.toDigitsCore 10 f (n / 10) ((n % 10).digitChar :: ds)) = _
  rw [if_pos (by omega), Nat.mod_eq_of_lt h9]

theorem toDigitsCore_step (f n : Nat) (ds : List Char) (h10 : 10 ≤ n) :
    Nat.toDigitsCore 10 (f + 1) n ds =
      Nat.toDigitsCore 10 f (n / 10) (Nat.digitChar (n % 10) :: ds) := by
  show (if n / 10 = 0 then (n % 10).digitChar :: ds
    else Nat.toDigitsCore 10 f (n / 10) ((n % 10).digitChar :: ds)) = _
  rw [if_neg (by omega)]

/-- The decimal rendering of a four-digit number, digit by digit. -/
theorem repr_four_digits (n : Nat) (h1 : 1000 ≤ n) (h2 : n < 10000) :
    (Nat.repr n).data =
      [Nat.digitChar (n / 1000 % 10), Nat.digitChar (n / 100 % 10),
       Nat.digitChar (n / 10 % 10), Nat.digitChar (n % 10)] := by
  show Nat.toDigits 10 n = _
  rw [Nat.toDigits]
  obtain ⟨m, hm⟩ : ∃ m, n + 1 = (m + 1) + 1 := ⟨n - 1, by omega⟩
  obtain ⟨k, hk⟩ : ∃ k, m + 1 = (k + 1) + 1 := ⟨m - 1, by omega⟩
  obtain ⟨j, hj⟩ : ∃ j, k + 1 = (j + 1) + 1 := ⟨k - 1, by omega⟩
  rw [hm, toDigitsCore_step _ _ _ (by omega)]
  rw [hk, toDigitsCore_step _ _ _ (by omega)]
  rw [hj, toDigitsCore_step _ _ _ (by omega)]
  rw [toDigitsCore_emit _ _ _ (by omega)]
  rw [show n / 10 / 10 = n / 100 by omega]
  rw [show n / 100 / 10 = n / 1000 % 10 by omega]

/-- A four-digit year with a non-zero leading digit is rendered by the
unpadded `%Y` exactly as its four source characters. -/
theorem yearStr_reconstruct (a b c d : Char) (ha : a.isDigit = true) (hb : b.isDigit = true)
    (hc : c.isDigit = true) (hd : d.isDigit = true) (hlead : a ≠ '0') :
    yearStr (((a.toNat - 48) * 10 + (b.toNat - 48)) * 100 + d2v c d) = [a, b, c, d] := by
  obtain ⟨ha1, ha2⟩ := isDigit_toNat a ha
  obtain ⟨hb1, hb2⟩ := isDigit_toNat b hb
  obtain ⟨hc1, hc2⟩ := isDigit_toNat c hc
  obtain ⟨hd1, hd2⟩ := isDigit_toNat d hd
  have h49 : 49 ≤ a.toNat := by
    rcases Nat.lt_or_ge a.toNat 49 with hlt | hge
    · exfalso
      apply hlead
      have h48 : a.toNat = 48 := by omega
      rw [← Char.ofNat_toNat a, h48]
    · exact hge
  unfold yearStr d2v
  rw [repr_four_digits _ (by omega) (by omega)]
  rw [show (((a.toNat - 48) * 10 + (b.toNat - 48)) * 100 + ((c.toNat - 48) * 10 + (d.toNat - 48)))
      / 1000 % 10 = a.toNat - 48 by omega]
  rw [show (((a.toNat - 48) * 10 + (b.toNat - 48)) * 100 + ((c.toNat - 48) * 10 + (d.toNat - 48)))
      / 100 % 10 = b.toNat - 48 by omega]
  rw [show (((a.toNat - 48) * 10 + (b.toNat - 48)) * 100 + ((c.toNat - 48) * 10 + (d.toNat - 48)))
      / 10 % 10 = c.toNat - 48 by omega]
  rw [show (((a.toNat - 48) * 10 + (b.toNat - 48)) * 100 + ((c.toNat - 48) * 10 + (d.toNat - 48)))
      % 10 = d.toNat - 48 by omega]
  rw [natDigitChar_eq _ (by omega), natDigitChar_eq _ (by omega),
    natDigitChar_eq _ (by omega), natDigitChar_eq _ (by omega)]
  rw [digitChar_reconstruct a ha, digitChar_reconstruct b hb, digitChar_reconstruct c hc,
    digitChar_reconstruct d hd]

/-- A successful 19-character parse whose year field does not start
with `0` yields a year of at least 1000. -/
theorem parseFix19_year (cs : Str) (dt : DT) (h : parseFix19 cs = some dt)
    (hz : cs.head? ≠ some '0') : 1000 ≤ dt.y := by
  unfold parseFix19 at h
  split at h
  · rename_i y1 y2 y3 y4 s1 m1 m2 s2 d1 dd2 s3 hh1 hh2 s4 n1 n2 s5 e1 e2
    split_ifs at h with hc hr
    · obtain ⟨hy1, hy2, hy3, hy4, hm1, hm2, hd1, hd2, hhh1, hhh2, hn1, hn2, he1, he2,
        hq1, hq2, hq3, hq4, hq5⟩ := hc
      injection h with hdt
      subst hdt
      show 1000 ≤ ((y1.toNat - 48) * 10 + (y2.toNat - 48)) * 100 + d2v y3 y4
      have hzz : y1 ≠ '0' := by
        intro he
        exact hz (by rw [he]; rfl)
      have h49 : 49 ≤ y1.toNat := by
        obtain ⟨hb1, hb2⟩ := isDigit_toNat y1 hy1
        rcases Nat.lt_or_ge y1.toNat 49 with hlt | hge
        · exfalso
          apply hzz
          have h48 : y1.toNat = 48 := by omega
          rw [← Char.ofNat_toNat y1, h48]
        · exact hge
      obtain ⟨hb3, hb4⟩ := isDigit_toNat y2 hy2
      unfold d2v
      omega
  · exact nomatch h

theorem parseFix19_shape (cs : Str) (dt : DT) (h : parseFix19 cs = some dt)
    (hy : 1000 ≤ dt.y) :
    yearStr dt.y ++ '-' :: pad2 dt.mo ++ '-' :: pad2 dt.d ++ ' ' :: pad2 dt.h ++ ':' :: pad2 dt.mi
      = cs.take 16 := by
  unfold parseFix19 at h
  split at h
  · rename_i y1 y2 y3 y4 s1 m1 m2 s2 d1 dd2 s3 hh1 hh2 s4 n1 n2 s5 e1 e2
    split_ifs at h with hc hr
    · obtain ⟨hy1, hy2, hy3, hy4, hm1, hm2, hd1, hd2, hhh1, hhh2, hn1, hn2, he1, he2,
        hq1, hq2, hq3, hq4, hq5⟩ := hc
      injection h with hdt
      subst hdt
      subst hq1; subst hq2; subst hq3; subst hq4; subst hq5
      have hyv : 1000 ≤ ((y1.toNat - 48) * 10 + (y2.toNat - 48)) * 100 + d2v y3 y4 := hy
      have hlead : y1 ≠ '0' := by
        intro he
        obtain ⟨t2a, t2b⟩ := isDigit_toNat y2 hy2
        obtain ⟨t3a, t3b⟩ := isDigit_toNat y3 hy3
        obtain ⟨t4a, t4b⟩ := isDigit_toNat y4 hy4
        rw [he] at hyv
        unfold d2v at hyv
        rw [show ('0').toNat = 48 from rfl] at hyv
        omega
      show yearStr (((y1.toNat - 48) * 10 + (y2.toNat - 48)) * 100 + d2v y3 y4) ++
          '-' :: pad2 (d2v m1 m2) ++ '-' :: pad2 (d2v d1 dd2) ++ ' ' :: pad2 (d2v hh1 hh2) ++
          ':' :: pad2 (d2v n1 n2) = _
      rw [yearStr_reconstruct y1 y2 y3 y4 hy1 hy2 hy3 hy4 hlead, pad2_reconstruct m1 m2 hm1 hm2,
        pad2_reconstruct d1 dd2 hd1 hd2, pad2_reconstruct hh1 hh2 hhh1 hhh2,
        pad2_reconstruct n1 n2 hn1 hn2]
      rfl
  · exact nomatch h

theorem minuteLabel_take (ts l : Str) (hz : ts.head? ≠ some '0')
    (h : minuteLabel ts = some l) : l = ts.take 16 := by
  unfold minuteLabel at h
  cases hp : parseFix19 (ts.take 19) with
  | none => rw [hp] at h; exact nomatch h
  | some dt =>
    rw [hp] at h
    injection h with h2
    have hzt : (ts.take 19).head? ≠ some '0' := by
      cases ts with
      | nil => exact nomatch hp
      | cons c t => simpa using hz
    have hy := parseFix19_year (ts.take 19) dt hp hzt
    rw [← h2, parseFix19_shape (ts.take 19) dt hp hy, List.take_take]
    norm_num

theorem take_lex_le (a b : Str) (hx : List.Lex (· < ·) a b) :
    ∀ n, a.take n ≤ b.take n := by
  induction hx with
  | nil =>
    intro n
    simp only [List.take_nil]
    exact List.nil_le
  | @rel x as y bs hxy =>
    intro n
    cases n with
    | zero => simp
    | succ m =>
      simp only [List.take_succ_cons]
      exact le_of_lt (show (x :: as.take m) < (y :: bs.take m) from List.Lex.rel hxy)
  | @cons x as bs hab ih =>
    intro n
    cases n with
    | zero => simp
    | succ m =>
      simp only [List.take_succ_cons]
      exact List.cons_le_cons x (ih m)

/-- Claim C8 counterexample: `strftime` under glibc does not zero-pad
`%Y`, so the year-999 timestamp gets the 15-character label
`999-12-31 23:59`; the two timestamps are fixed-width, ordered and
both derivable, yet the first label is lexicographically greater than
the second (`9` > `1`), refuting the claimed monotonicity. -/
theorem C8_counterexample :
    minuteLabel "0999-12-31 23:59:59".data = some "999-12-31 23:59".data ∧
    minuteLabel "1000-01-01 00:00:00".data = some "1000-01-01 00:00".data ∧
    ("0999-12-31 23:59:59".data : Str) ≤ "1000-01-01 00:00:00".data ∧
    ¬(("999-12-31 23:59".data : Str) ≤ "1000-01-01 00:00".data) := by decide

/-- Claim C8 (amended): for timestamps in the fixed-width
`date space time` shape whose minute bucket labels are both derivable
AND whose year fields do not start with the digit `0` (year at least
1000), `t1 ≤ t2` lexicographically implies `label(t1) ≤ label(t2)`
lexicographically — each such label is exactly the 16-character prefix
of its timestamp.  The restriction is necessary: `%Y` is not
zero-padded on CPython/glibc, so a year below 1000 yields a shorter
label and breaks monotonicity. -/
theorem C8_minute_label_monotone (t1 t2 l1 l2 : Str)
    (hz1 : t1.head? ≠ some '0') (hz2 : t2.head? ≠ some '0')
    (h1 : minuteLabel t1 = some l1) (h2 : minuteLabel t2 = some l2) (h12 : t1 ≤ t2) :
    l1 ≤ l2 := by
  rw [minuteLabel_take t1 l1 hz1 h1, minuteLabel_take t2 l2 hz2 h2]
  rcases lt_or_eq_of_le h12 with hlt | heq
  · exact take_lex_le t1 t2 hlt 16
  · rw [heq]

/-- Witness for C8 at two concrete mixed-precision timestamps with
four-digit years. -/
theorem C8_minute_label_monotone_witness :
    (("2024-01-01 10:00:59.25 UTC".data : Str).head? ≠ some '0') ∧
    (("2024-01-02 00:00:00".data : Str).head? ≠ some '0') ∧
    minuteLabel "2024-01-01 10:00:59.25 UTC".data = some "2024-01-01 10:00".data ∧
    minuteLabel "2024-01-02 00:00:00".data = some "2024-01-02 00:00".data ∧
    ("2024-01-01 10:00:59.25 UTC".data : Str) ≤ "2024-01-02 00:00:00".data ∧
    ("2024-01-01 10:00".data : Str) ≤ "2024-01-02 00:00".data :=
  ⟨by decide, by decide, by decide, by decide, by decide,
   C8_minute_label_monotone "2024-01-01 10:00:59.25 UTC".data "2024-01-02 00:00:00".data
     "2024-01-01 10:00".data "2024-01-02 00:00".data (by decide) (by decide) (by decide)
     (by decide) (by decide)⟩

/-! ### Claim C6 -/

theorem splitNl_ne_nil (s : Str) : splitNl s ≠ [] := by
  cases s with
  | nil => simp [splitNl]
  | cons c rest =>
    simp only [splitNl]
    by_cases hc : c = '\n'
    · rw [if_pos hc]; simp
    · rw [if_neg hc]
      cases h : splitNl rest with
      | nil => simp
      | cons l ls => simp

theorem splitNl_cons_nl (rest : Str) : splitNl ('\n' :: rest) = [] :: splitNl rest := by
  simp [splitNl]

theorem splitNl_cons_ne (c : Char) (rest : Str) (hc : c ≠ '\n') :
    splitNl (c :: rest) = (c :: (splitNl rest).headD []) :: (splitNl rest).tail := by
  simp only [splitNl, if_neg hc]
  cases h : splitNl rest with
  | nil => exact absurd h (splitNl_ne_nil rest)
  | cons l ls => rfl

theorem getLastD_irrel (l : List Str) (d d2 : Str) (h : l ≠ []) :
    l.getLastD d = l.getLastD d2 := by
  cases l with
  | nil => exact absurd rfl h
  | cons x xs => rw [List.getLastD_cons, List.getLastD_cons]

theorem getLastD_append_cons (xs : List Str) (y : Str) (ys : List Str) (d : Str) :
    (xs ++ y :: ys).getLastD d = (y :: ys).getLastD d := by
  induction xs generalizing d with
  | nil => rfl
  | cons x xs ih =>
    rw [List.cons_append, List.getLastD_cons, ih x]
    exact getLastD_irrel (y :: ys) x d (by simp)

theorem dropLast_cons_of_ne_nil (x : Str) (l : List Str) (h : l ≠ []) :
    (x :: l).dropLast = x :: l.dropLast := by
  cases l with
  | nil => exact absurd rfl h
  | cons y ys => rfl

/-- Splitting a concatenation: the complete lines of `a`, then the
carry of `a` glued onto the first piece of `b`. -/
theorem splitNl_append (a b : Str) :
    splitNl (a ++ b) =
      (splitNl a).dropLast ++
        ((splitNl a).getLastD [] ++ (splitNl b).headD []) :: (splitNl b).tail := by
  induction a with
  | nil =>
    simp only [List.nil_append]
    cases hb : splitNl b with
    | nil => exact absurd hb (splitNl_ne_nil b)
    | cons lb tb => simp [splitNl]
  | cons c a2 ih =>
    by_cases hc : c = '\n'
    · subst hc
      rw [List.cons_append, splitNl_cons_nl, splitNl_cons_nl, ih]
      rw [dropLast_cons_of_ne_nil [] (splitNl a2) (splitNl_ne_nil a2), List.getLastD_cons,
        List.cons_append]
    · rw [List.cons_append, splitNl_cons_ne c (a2 ++ b) hc, splitNl_cons_ne c a2 hc, ih]
      cases h2 : splitNl a2 with
      | nil => exact absurd h2 (splitNl_ne_nil a2)
      | cons l2 t2 =>
        cases t2 with
        | nil =>
          simp only [List.headD_cons, List.tail_cons, List.dropLast_single, List.nil_append,
            List.getLastD_cons, List.getLastD_nil]
          cases hb : splitNl b with
          | nil => exact absurd hb (splitNl_ne_nil b)
          | cons lb tb => simp
        | cons y t2 =>
          rw [dropLast_cons_of_ne_nil l2 (y :: t2) (by simp)]
          simp only [List.cons_append, List.headD_cons, List.tail_cons]
          rw [dropLast_cons_of_ne_nil (c :: l2) (y :: t2) (by simp)]
          simp only [List.cons_append, List.headD_cons, List.tail_cons, List.getLastD_cons]

/-- The carry (text after the last newline) never contains a newline. -/
theorem splitNl_carry_no_nl (s : Str) : '\n' ∉ (splitNl s).getLastD [] := by
  induction s with
  | nil => simp [splitNl]
  | cons c rest ih =>
    by_cases hc : c = '\n'
    · subst hc
      rw [splitNl_cons_nl, List.getLastD_cons,
        getLastD_irrel (splitNl rest) [] _ (splitNl_ne_nil rest)]
      exact ih
    · rw [splitNl_cons_ne c rest hc]
      cases h2 : splitNl rest with
      | nil => exact absurd h2 (splitNl_ne_nil rest)
      | cons l2 t2 =>
        rw [h2] at ih
        cases t2 with
        | nil =>
          simp only [List.headD_cons, List.tail_cons, List.getLastD_cons,
            List.getLastD_nil] at ih ⊢
          simp only [List.mem_cons, not_or]
          exact ⟨fun he => hc he.symm, ih⟩
        | cons y t2 =>
          simp only [List.headD_cons, List.tail_cons, List.getLastD_cons] at ih ⊢
          exact ih

theorem splitNl_no_nl (a : Str) (h : '\n' ∉ a) : splitNl a = [a] := by
  induction a with
  | nil => rfl
  | cons c rest ih =>
    have hc : c ≠ '\n' := fun he => h (by simp [he])
    rw [splitNl_cons_ne c rest hc, ih (fun hm => h (by simp [hm]))]
    rfl

/-- Feeding two chunks equals feeding their concatenation. -/
theorem plFeedChunk_fuse (st : ChunkSt) (a b : Str) :
    plFeedChunk (plFeedChunk st a) b = plFeedChunk st (a ++ b) := by
  unfold plFeedChunk
  have hA : st.buffer ++ (a ++ b) = (st.buffer ++ a) ++ b := by rw [List.append_assoc]
  rw [hA, splitNl_append (st.buffer ++ a) b]
  have hcarry := splitNl_carry_no_nl (st.buffer ++ a)
  rw [splitNl_append ((splitNl (st.buffer ++ a)).getLastD []) b,
    splitNl_no_nl _ hcarry]
  simp only [List.dropLast_single, List.getLastD_cons, List.getLastD_nil, List.nil_append]
  cases hb : splitNl b with
  | nil => exact absurd hb (splitNl_ne_nil b)
  | cons lb tb =>
    simp only [List.headD_cons, List.tail_cons, List.dropLast_append_cons,
      getLastD_append_cons, List.getLastD_cons, List.foldl_append, List.append_assoc]

/-- A non-empty chunk sequence is equivalent to one big chunk. -/
theorem plConsume_join :
    ∀ (chunks : List Str) (st : ChunkSt), chunks ≠ [] → (∀ c ∈ chunks, c ≠ []) →
      plConsume chunks st = plFeedChunk st chunks.flatten := by
  intro chunks
  induction chunks with
  | nil => intro st hne _; exact absurd rfl hne
  | cons ch rest ih =>
    intro st _ h
    have hch : ch ≠ [] := h ch (by simp)
    have hchF : ch.isEmpty = false := by
      cases ch with
      | nil => exact absurd rfl hch
      | cons x xs => rfl
    simp only [plConsume, hchF, Bool.false_eq_true, if_false]
    cases hr : rest with
    | nil =>
      subst hr
      simp only [plConsume, List.flatten_cons, List.flatten_nil, List.append_nil]
    | cons r2 rs =>
      rw [← hr]
      have hrne : rest ≠ [] := by rw [hr]; simp
      rw [ih (plFeedChunk st ch) hrne (fun c hc => h c (by simp [hc]))]
      rw [plFeedChunk_fuse st ch rest.flatten, List.flatten_cons]

theorem plFinish_feed (text : Str) :
    plFinish (plFeedChunk ⟨⟨[], []⟩, [], []⟩ text) = plLineByLine text := by
  unfold plFinish plFeedChunk plLineByLine
  simp only [List.nil_append]
  split_ifs <;> simp

/-- Claim C6: for every chunk sequence that a real file read delivers
(non-empty chunks), the chunked parser produces exactly the same
result — the same processed-complete-line trace and the same final
counter — as the whole-input line-by-line reading of the concatenated
text; a fragment at a chunk boundary is never processed as a complete
line, and the final fragment and pending record are handled at end of
input. -/
theorem C6_chunked_equals_line_by_line (chunks : List Str)
    (h : ∀ c ∈ chunks, c ≠ []) :
    parseLogInChunks chunks = plLineByLine chunks.flatten := by
  cases hc : chunks with
  | nil => rfl
  | cons ch rest =>
    rw [← hc]
    unfold parseLogInChunks
    rw [plConsume_join chunks ⟨⟨[], []⟩, [], []⟩ (by rw [hc]; simp) h]
    exact plFinish_feed chunks.flatten

/-- Witness for C6: a three-chunk split of a two-statement log. -/
theorem C6_chunked_equals_line_by_line_witness :
    (∀ c ∈ ["2024-01-01 10:00:01 LOG:  st".data, "atement: SELECT 1;\n2024-01-0".data,
      "1 10:00:02 LOG:  statement: SELECT 2;".data], c ≠ []) ∧
    parseLogInChunks ["2024-01-01 10:00:01 LOG:  st".data, "atement: SELECT 1;\n2024-01-0".data,
        "1 10:00:02 LOG:  statement: SELECT 2;".data] =
      plLineByLine (["2024-01-01 10:00:01 LOG:  st".data, "atement: SELECT 1;\n2024-01-0".data,
        "1 10:00:02 LOG:  statement: SELECT 2;".data]).flatten :=
  ⟨by decide,
   C6_chunked_equals_line_by_line ["2024-01-01 10:00:01 LOG:  st".data,
     "atement: SELECT 1;\n2024-01-0".data, "1 10:00:02 LOG:  statement: SELECT 2;".data]
     (by decide)⟩

/-! ### Claim C3 -/

theorem pairwise_flatMap_of {α β : Type} (R : β → β → Prop) (f : α → List β) :
    ∀ (l : List α), (∀ a ∈ l, (f a).Pairwise R) →
      l.Pairwise (fun a b => ∀ x ∈ f a, ∀ y ∈ f b, R x y) →
      (l.flatMap f).Pairwise R := by
  intro l
  induction l with
  | nil => intro _ _; simp
  | cons a l ih =>
    intro h1 h2
    rw [List.flatMap_cons, List.pairwise_append]
    obtain ⟨hhead, htail⟩ := List.pairwise_cons.mp h2
    refine ⟨h1 a (by simp), ih (fun b hb => h1 b (by simp [hb])) htail, ?_⟩
    intro x hx y hy
    obtain ⟨b, hb, hyb⟩ := List.mem_flatMap.mp hy
    exact hhead b hb x hx y hyb

theorem sortStr_sorted (l : List Str) : (sortStr l).Pairwise (· ≤ ·) :=
  List.sorted_insertionSort (· ≤ ·) l

theorem sortStr_nodup (l : List Str) (h : l.Nodup) : (sortStr l).Nodup :=
  ((List.perm_insertionSort (· ≤ ·) l).nodup_iff).mpr h

theorem sortStr_pairwise_lt (l : List Str) (h : l.Nodup) : (sortStr l).Pairwise (· < ·) :=
  ((sortStr_sorted l).and (sortStr_nodup l h)).imp
    (fun hab => lt_of_le_of_ne hab.1 hab.2)

/-- Claim C3 counterexample: on the two-SELECT scenario of the spec the
summary store receives the line with the Russian text
`выполнился 2 раз` around the count, not the bare `| 2` form the claim
states. -/
theorem C3_counterexample :
    genSummary (dayRun [c4line1, c4line2]).st [] =
      ["2024-01-01 | SELECT * FROM users WHERE id = $num | выполнился 2 раз\n".data] ∧
    ("2024-01-01 | SELECT * FROM users WHERE id = $num | выполнился 2 раз\n".data : Str) ≠
      "2024-01-01 | SELECT * FROM users WHERE id = $num | 2\n".data :=
  ⟨by decide, by decide⟩

/-- Claim C3 (amended): every line the aggregator writes has exactly
the form `<bucketLabel> | <normalizedStatement> | выполнился <count> раз\n`
(the count is wrapped in that literal Russian text, unlike the bare
`<count>` of the claim), and the entries are sorted first by bucket
label, then by normalized statement text, lexicographically. -/
theorem C3_summary_format_and_order (st : DState) (cache0 : Cache) :
    (∀ line ∈ genSummary st cache0, ∃ d s c, line =
        d ++ " | ".data ++ s ++ " | выполнился ".data ++ (Nat.repr c).data ++ " раз\n".data) ∧
    (summaryEntries st cache0).Pairwise
      (fun e1 e2 => e1.1 ≤ e2.1 ∧ (e1.1 = e2.1 → e1.2.1 ≤ e2.2.1)) := by
  constructor
  · intro line hl
    obtain ⟨e, he, hrend⟩ := List.mem_map.mp hl
    exact ⟨e.1, e.2.1, e.2.2, by rw [← hrend]; rfl⟩
  · unfold summaryEntries
    apply pairwise_flatMap_of
    · intro d hd
      refine List.Pairwise.map _ ?_ (sortStr_sorted _)
      intro s1 s2 hle
      exact ⟨le_refl d, fun _ => hle⟩
    · have hdays := sortStr_pairwise_lt
        ((((summaryScan st cache0).2).map Prod.fst).dedup) (List.nodup_dedup _)
      refine hdays.imp ?_
      intro d1 d2 hlt x hx y hy
      obtain ⟨s1, hs1, hx1⟩ := List.mem_map.mp hx
      obtain ⟨s2, hs2, hy1⟩ := List.mem_map.mp hy
      rw [← hx1, ← hy1]
      exact ⟨le_of_lt hlt, fun he => absurd he (ne_of_lt hlt)⟩

/-- Witness for C3 on the concrete scenario state. -/
theorem C3_summary_format_and_order_witness :
    ("2024-01-01 | SELECT * FROM users WHERE id = $num | выполнился 2 раз\n".data : Str) ∈
      genSummary (dayRun [c4line1, c4line2]).st [] ∧
    (∃ d s c, ("2024-01-01 | SELECT * FROM users WHERE id = $num | выполнился 2 раз\n".data : Str) =
        d ++ " | ".data ++ s ++ " | выполнился ".data ++ (Nat.repr c).data ++ " раз\n".data) :=
  ⟨by decide,
   (C3_summary_format_and_order (dayRun [c4line1, c4line2]).st []).1
     "2024-01-01 | SELECT * FROM users WHERE id = $num | выполнился 2 раз\n".data (by decide)⟩

/-! ### Association-list and string facts for the writer invariant -/

theorem getA_setA_same {α : Type} (m : List (Str × α)) (k : Str) (v d : α) :
    getA (setA m k v) k d = v := by
  induction m with
  | nil => simp [setA, getA]
  | cons p rest ih =>
    obtain ⟨k0, v0⟩ := p
    by_cases hk : k0 = k
    · simp [setA, getA, hk]
    · simp only [setA, getA, if_neg hk]
      exact ih

theorem getA_setA_other {α : Type} (m : List (Str × α)) (k k2 : Str) (v : α) (d : α)
    (h : k ≠ k2) : getA (setA m k v) k2 d = getA m k2 d := by
  induction m with
  | nil => simp [setA, getA, h]
  | cons p rest ih =>
    obtain ⟨k0, v0⟩ := p
    by_cases hk : k0 = k
    · subst hk
      simp only [setA, if_pos rfl, getA, if_neg h]
    · simp only [setA, if_neg hk, getA]
      by_cases hk2 : k0 = k2
      · rw [if_pos hk2, if_pos hk2]
      · rw [if_neg hk2, if_neg hk2]
        exact ih

theorem getA_not_mem {α : Type} (m : List (Str × α)) (k : Str) (d : α)
    (h : k ∉ m.map Prod.fst) : getA m k d = d := by
  induction m with
  | nil => rfl
  | cons p rest ih =>
    obtain ⟨k0, v0⟩ := p
    simp only [List.map_cons, List.mem_cons, not_or] at h
    have hne : ¬(k0 = k) := fun he => h.1 he.symm
    simp only [getA, if_neg hne]
    exact ih h.2

theorem keys_setA {α : Type} (m : List (Str × α)) (k : Str) (v : α) :
    (setA m k v).map Prod.fst =
      if k ∈ m.map Prod.fst then m.map Prod.fst else m.map Prod.fst ++ [k] := by
  induction m with
  | nil => simp [setA]
  | cons p rest ih =>
    obtain ⟨k0, v0⟩ := p
    by_cases hk : k0 = k
    · subst hk
      have hset : setA ((k0, v0) :: rest) k0 v = (k0, v) :: rest := by simp [setA]
      rw [hset, List.map_cons, List.map_cons, if_pos (List.mem_cons_self k0 _)]
    · have hkk : ¬(k = k0) := fun he => hk he.symm
      simp only [setA, if_neg hk, List.map_cons, ih, List.mem_cons]
      by_cases hm : k ∈ rest.map Prod.fst
      · rw [if_pos hm, if_pos (Or.inr hm)]
      · rw [if_neg hm, if_neg (fun hor => hor.elim hkk hm)]
        simp

theorem keys_setA_nodup {α : Type} (m : List (Str × α)) (k : Str) (v : α)
    (h : (m.map Prod.fst).Nodup) : ((setA m k v).map Prod.fst).Nodup := by
  rw [keys_setA]
  by_cases hm : k ∈ m.map Prod.fst
  · rwa [if_pos hm]
  · rw [if_neg hm]
    simp [List.nodup_append, h, hm]

theorem filter_eq_length_one (dates : List Str) (d : Str) (hnd : dates.Nodup)
    (hd : d ∈ dates) : (dates.filter (fun x => x = d)).length = 1 := by
  induction dates with
  | nil => exact nomatch hd
  | cons a rest ih =>
    rw [List.nodup_cons] at hnd
    by_cases had : a = d
    · subst had
      have h0 : List.filter (fun x => decide (x = a)) rest = [] := by
        rw [List.filter_eq_nil_iff]
        intro x hx
        simp only [decide_eq_true_eq]
        exact fun hxa => hnd.1 (hxa ▸ hx)
      simp [List.filter_cons, h0]
    · have hm : d ∈ rest := by
        rcases List.mem_cons.mp hd with he | hm
        · exact absurd he.symm had
        · exact hm
      simp only [List.filter_cons, decide_eq_true_eq]
      rw [if_neg had]
      exact ih hnd.2 hm

theorem noSep_align (x : Str) :
    ∀ (y u v : Str), '_' ∉ x → '_' ∉ y → x ++ '_' :: u = y ++ '_' :: v →
      x = y ∧ u = v := by
  induction x with
  | nil =>
    intro y u v _ hy h
    cases y with
    | nil => simpa using h
    | cons c y2 =>
      simp only [List.nil_append, List.cons_append, List.cons.injEq] at h
      exact absurd (h.1 ▸ List.mem_cons_self '_' y2) (h.1 ▸ hy)
  | cons c x2 ih =>
    intro y u v hx hy h
    cases y with
    | nil =>
      simp only [List.cons_append, List.nil_append, List.cons.injEq] at h
      exact absurd (h.1 ▸ List.mem_cons_self '_' x2) (by rw [← h.1] at hx; exact hx)
    | cons c2 y2 =>
      simp only [List.cons_append, List.cons.injEq] at h
      obtain ⟨hc, hrest⟩ := h
      have := ih y2 u v (fun hm => hx (by simp [hm])) (fun hm => hy (by simp [hm])) hrest
      exact ⟨by rw [hc, this.1], this.2⟩

/-! ### Shape of extracted timestamps -/

theorem isDigit_not_ws (c : Char) (h : c.isDigit = true) : c.isWhitespace = false := by
  obtain ⟨h1, h2⟩ := isDigit_toNat c h
  by_contra hw
  rw [Bool.not_eq_false] at hw
  simp only [Char.isWhitespace, Bool.or_eq_true, decide_eq_true_eq] at hw
  exact hw.elim
    (fun h3 => h3.elim
      (fun h4 => h4.elim (fun h5 => absurd (h5 ▸ h1) (by decide))
        (fun h5 => absurd (h5 ▸ h1) (by decide)))
      (fun h4 => absurd (h4 ▸ h1) (by decide)))
    (fun h4 => absurd (h4 ▸ h1) (by decide))

theorem isDigit_ne_underscore (c : Char) (h : c.isDigit = true) : c ≠ '_' := by
  intro he
  rw [he] at h
  exact absurd h (by decide)

theorem digitsExact_spec :
    ∀ (n : Nat) (cs d r : Str), digitsExact n cs = some (d, r) →
      (∀ c ∈ d, c.isDigit = true) ∧ d.length = n := by
  intro n
  induction n with
  | zero =>
    intro cs d r h
    rw [digitsExact.eq_1] at h
    injection h with h1
    obtain ⟨h2, _⟩ := Prod.mk.injEq .. |>.mp h1
    subst h2
    exact ⟨by simp, rfl⟩
  | succ n ih =>
    intro cs d r h
    cases cs with
    | nil => exact nomatch h
    | cons c rest =>
      rw [digitsExact.eq_3] at h
      by_cases hc : c.isDigit
      · rw [if_pos hc] at h
        cases hd : digitsExact n rest with
        | none => rw [hd] at h; exact nomatch h
        | some p =>
          rw [hd] at h
          obtain ⟨d2, r2⟩ := p
          rw [Option.map_some'] at h
          simp only [Option.some.injEq, Prod.mk.injEq] at h
          obtain ⟨h3, _⟩ := h
          subst h3
          obtain ⟨hall, hlen⟩ := ih rest d2 r2 hd
          refine ⟨?_, by simp [hlen]⟩
          intro x hx
          rcases List.mem_cons.mp hx with he | hm
          · rw [he]; exact hc
          · exact hall x hm
      · rw [if_neg hc] at h; exact nomatch h

theorem parseTsHead_shape (line ts rest : Str) (h : parseTsHead line = some (ts, rest)) :
    ∃ d10 tl, ts = d10 ++ ' ' :: tl ∧ d10 ≠ [] ∧
      (∀ c ∈ d10, c.isWhitespace = false ∧ c ≠ '_') ∧
      (∃ c0 ∈ tl, c0.isWhitespace = false) := by
  unfold parseTsHead at h
  cases h1 : digitsExact 4 line with
  | none => rw [h1] at h; exact nomatch h
  | some p1 =>
    rw [h1] at h
    obtain ⟨y, r1⟩ := p1
    simp only [Option.bind_eq_bind, Option.some_bind] at h
    simp only [Option.bind_eq_some, Option.some.injEq, Prod.mk.injEq] at h
    obtain ⟨r2, hl1, ⟨mo, r3⟩, h2, r4, hl2, ⟨dd, r5⟩, h3, r6, hl3, ⟨hh, r7⟩, h4,
      r8, hl4, ⟨mi, r9⟩, h5, r10, hl5, ⟨ss, r11⟩, h6, hts, hrest⟩ := h
    obtain ⟨hyD, hyL⟩ := digitsExact_spec 4 line y r1 h1
    obtain ⟨hmoD, _⟩ := digitsExact_spec 2 r2 mo r3 h2
    obtain ⟨hddD, _⟩ := digitsExact_spec 2 r4 dd r5 h3
    obtain ⟨hhhD, hhhL⟩ := digitsExact_spec 2 r6 hh r7 h4
    refine ⟨y ++ '-' :: mo ++ '-' :: dd,
      hh ++ ':' :: mi ++ ':' :: ss ++ (fracPart r11).1 ++ (utcPart (fracPart r11).2).1,
      ?_, ?_, ?_, ?_⟩
    · rw [← hts]
      simp [List.append_assoc]
    · intro he
      simp only [List.append_eq_nil] at he
      exact List.cons_ne_nil _ _ he.2
    · intro c hc
      have hor : c ∈ y ∨ c ∈ mo ∨ c ∈ dd ∨ c = '-' := by
        simp only [List.mem_append, List.mem_cons] at hc
        tauto
      rcases hor with hy | hmo | hdd | hm
      · exact ⟨isDigit_not_ws c (hyD c hy), isDigit_ne_underscore c (hyD c hy)⟩
      · exact ⟨isDigit_not_ws c (hmoD c hmo), isDigit_ne_underscore c (hmoD c hmo)⟩
      · exact ⟨isDigit_not_ws c (hddD c hdd), isDigit_ne_underscore c (hddD c hdd)⟩
      · rw [hm]; exact ⟨by decide, by decide⟩
    · cases hh with
      | nil => exact nomatch hhhL
      | cons c0 hs =>
        exact ⟨c0, by simp, isDigit_not_ws c0 (hhhD c0 (by simp))⟩

/-! ### Words of stripped strings -/

theorem rdropWhile_append (p : Char → Bool) (a b : Str) (hb : ∃ x ∈ b, p x = false) :
    rdropWhile p (a ++ b) = a ++ rdropWhile p b := by
  unfold rdropWhile
  rw [List.reverse_append, List.dropWhile_append]
  have hne : List.dropWhile p b.reverse ≠ [] := by
    rw [Ne, List.dropWhile_eq_nil_iff]
    intro hall
    obtain ⟨x, hx, hpx⟩ := hb
    have h2 := hall x (by simpa using hx)
    rw [h2] at hpx
    exact nomatch hpx
  rw [if_neg (by simpa [List.isEmpty_iff] using hne)]
  rw [List.reverse_append, List.reverse_reverse]

theorem pySplitAux_word (w X : Str) (hw : ∀ c ∈ w, c.isWhitespace = false) :
    ∀ acc : Str, (acc ≠ [] ∨ w ≠ []) →
      pySplitAux (w ++ ' ' :: X) acc = (acc.reverse ++ w) :: pySplit X := by
  induction w with
  | nil =>
    intro acc hne
    have hacc : ¬(acc.isEmpty = true) := by
      rw [List.isEmpty_iff]
      rcases hne with h | h
      · exact h
      · exact absurd rfl h
    simp only [List.nil_append, pySplitAux, if_pos (by decide : (' ').isWhitespace = true),
      if_neg hacc, List.append_nil]
    rfl
  | cons c w2 ih =>
    intro acc hne
    have hc : c.isWhitespace = false := hw c (by simp)
    rw [List.cons_append]
    simp only [pySplitAux, hc, Bool.false_eq_true, if_false]
    rw [ih (fun x hx => hw x (by simp [hx])) (c :: acc) (Or.inl (List.cons_ne_nil c acc))]
    simp

theorem firstTok_word (w X : Str) (hw : ∀ c ∈ w, c.isWhitespace = false) (hne : w ≠ []) :
    firstTok (w ++ ' ' :: X) = some w := by
  unfold firstTok pySplit
  rw [pySplitAux_word w X hw [] (Or.inr hne)]
  simp

theorem extract_query_tsOk (line : Str) (q : Query) (h : extract_query line = some q) :
    ∃ e, firstTok q.ts = some e ∧ '_' ∉ e := by
  unfold extract_query at h
  split at h
  · exact nomatch h
  · rename_i ts0 rest hp
    split at h
    · exact nomatch h
    · rename_i tail hf
      injection h with h
      obtain ⟨d10, tl, hts, hne, hall, c0, hc0, hc0w⟩ := parseTsHead_shape line ts0 rest hp
      have hts1 : q.ts = stripWS ts0 := by rw [← h]
      refine ⟨d10, ?_, fun hm => (hall '_' hm).2 rfl⟩
      rw [hts1, hts]
      obtain ⟨c1, d10t, hd10⟩ := List.exists_cons_of_ne_nil hne
      have hc1 : c1.isWhitespace = false := (hall c1 (by rw [hd10]; simp)).1
      have h1 : (d10 ++ ' ' :: tl).dropWhile Char.isWhitespace = d10 ++ ' ' :: tl := by
        rw [hd10, List.cons_append, List.dropWhile_cons, if_neg (by simp [hc1])]
      have h2 : d10 ++ ' ' :: tl = (d10 ++ [' ']) ++ tl := by simp
      unfold stripWS
      rw [h1, h2, rdropWhile_append Char.isWhitespace (d10 ++ [' ']) tl ⟨c0, hc0, hc0w⟩]
      rw [List.append_assoc, List.singleton_append]
      exact firstTok_word d10 _ (fun c hc => (hall c hc).1) hne

/-! ### Classification lands in the operation list -/

theorem OPS_noSep : ∀ o ∈ OPS, '_' ∉ o := by decide

theorem classifyOp_mem_OPS (sql op : Str) (h : classifyOp sql = some op) : op ∈ OPS := by
  unfold classifyOp at h
  split at h
  · injection h with h
    rw [← h]; decide
  · split at h
    · exact nomatch h
    · simp only at h
      split_ifs at h with h1 h2
      · injection h with h; rw [← h]; decide
      · injection h with h
        rw [← h]
        rcases h2 with h3 | h3 | h3 | h3 <;> rw [h3] <;> decide
      · injection h with h; rw [← h]; decide

/-! ### More association-list facts -/

theorem mem_setA {α : Type} (m : List (Str × α)) (k : Str) (v : α) (p : Str × α)
    (h : p ∈ setA m k v) : p ∈ m ∨ p = (k, v) := by
  induction m with
  | nil => simpa [setA] using h
  | cons q rest ih =>
    obtain ⟨k0, v0⟩ := q
    by_cases hk : k0 = k
    · simp only [setA, if_pos hk] at h
      rcases List.mem_cons.mp h with he | hm
      · subst hk; right; rw [he]
      · left; exact List.mem_cons_of_mem _ hm
    · simp only [setA, if_neg hk] at h
      rcases List.mem_cons.mp h with he | hm
      · left; rw [he]; exact List.mem_cons_self _ _
      · rcases ih hm with h2 | h2
        · left; exact List.mem_cons_of_mem _ h2
        · right; exact h2

theorem getA_of_mem_nodup {α : Type} (m : List (Str × α)) (k : Str) (v : α) (d : α)
    (hnd : (m.map Prod.fst).Nodup) (h : (k, v) ∈ m) : getA m k d = v := by
  induction m with
  | nil => exact nomatch h
  | cons q rest ih =>
    obtain ⟨k0, v0⟩ := q
    rw [List.map_cons, List.nodup_cons] at hnd
    rcases List.mem_cons.mp h with he | hm
    · have h1 : k = k0 := congrArg Prod.fst he
      have h2 : v = v0 := congrArg Prod.snd he
      simp only [getA, if_pos h1.symm]
      exact h2.symm
    · have hk0 : ¬(k0 = k) := by
        intro he
        subst he
        exact hnd.1 (List.mem_map.mpr ⟨(k0, v), hm, rfl⟩)
      simp only [getA, if_neg hk0]
      exact ih hnd.2 hm

/-! ### Unique date decomposition of a bucket filename -/

theorem suffix_glob_eq (p op d2 d : Str) (hop : '_' ∉ op) (hd2 : '_' ∉ d2) (hd : '_' ∉ d)
    (h : p ++ '_' :: (d2 ++ ".log".data) = op ++ '_' :: (d ++ ".log".data)) : d2 = d := by
  have hp : '_' ∉ p := by
    have hc := congrArg (List.count '_') h
    simp only [List.count_append, List.count_cons, List.count_eq_zero.mpr hop,
      List.count_eq_zero.mpr hd2, List.count_eq_zero.mpr hd,
      (by decide : List.count '_' ".log".data = 0)] at hc
    have hz : List.count '_' p = 0 := by omega
    exact List.count_eq_zero.mp hz
  have h6 := (noSep_align p op (d2 ++ ".log".data) (d ++ ".log".data) hp hop h).2
  exact List.append_cancel_right h6

theorem globDate_count (dates opened : List Str) (op d : Str)
    (hnd : dates.Nodup) (hsep : ∀ x ∈ dates, '_' ∉ x) (hdm : d ∈ dates)
    (hops : op ∈ OPS) (hdsep : '_' ∉ d)
    (hfo : op ++ '_' :: (d ++ ".log".data) ∈ opened) :
    (dates.filter
      (fun d2 => (op ++ '_' :: (d ++ ".log".data)) ∈ globDate opened d2)).length = 1 := by
  have hcong : ∀ d2 ∈ dates,
      (decide ((op ++ '_' :: (d ++ ".log".data)) ∈ globDate opened d2)) = decide (d2 = d) := by
    intro d2 hd2
    apply decide_eq_decide.mpr
    constructor
    · intro hmem
      obtain ⟨hino, hsuf⟩ := List.mem_filter.mp hmem
      obtain ⟨pfx, hpfx⟩ := List.isSuffixOf_iff_suffix.mp hsuf
      exact suffix_glob_eq pfx op d2 d (OPS_noSep op hops) (hsep d2 hd2) hdsep hpfx
    · intro he
      subst he
      exact List.mem_filter.mpr ⟨hfo, List.isSuffixOf_iff_suffix.mpr ⟨op, rfl⟩⟩
  rw [List.filter_congr hcong]
  exact filter_eq_length_one dates d hnd hdm

/-! ### The flush fold -/

theorem flushFold_get (opened : List Str) :
    ∀ (buffers contents : List (Str × List Str)),
      (buffers.map Prod.fst).Nodup →
      (∀ f b, (f, b) ∈ buffers → b ≠ [] → f ∈ opened) →
      ∀ f, getA (flushFold opened buffers contents) f [] =
        getA contents f [] ++ getA buffers f [] := by
  intro buffers
  induction buffers with
  | nil =>
    intro contents _ _ f
    simp [flushFold, getA]
  | cons q rest ih =>
    intro contents hnd hopn f
    obtain ⟨f0, b0⟩ := q
    rw [List.map_cons, List.nodup_cons] at hnd
    simp only [flushFold]
    rw [ih _ hnd.2 (fun g b hm hb => hopn g b (List.mem_cons_of_mem _ hm) hb) f]
    by_cases hcond : b0 ≠ [] ∧ f0 ∈ opened
    · rw [if_pos hcond]
      by_cases hf : f0 = f
      · subst hf
        rw [getA_setA_same]
        simp only [getA, if_pos rfl]
        rw [getA_not_mem rest f0 [] hnd.1]
        simp
      · rw [getA_setA_other _ _ _ _ _ hf]
        simp only [getA, if_neg hf]
    · rw [if_neg hcond]
      by_cases hf : f0 = f
      · subst hf
        have hb0 : b0 = [] := by
          by_contra hb
          exact hcond ⟨hb, hopn f0 b0 (List.mem_cons_self _ _) hb⟩
        subst hb0
        rw [getA_not_mem rest f0 [] hnd.1]
        simp [getA]
      · simp only [getA, if_neg hf]

/-! ### The writer invariant -/

/-- Invariant of the `PostgresLogParser` writer state: buffer and ghost
maps have distinct keys, every ghost entry is non-empty, per file the
persisted plus buffered lines are exactly the rendered routed pairs,
non-empty buffers and routed files are opened, opened files and seen
dates are distinct, dates carry no underscore, and every routed file
decomposes as `<op>_<date>.log` with the date seen and every routed
timestamp starting with that date. -/
structure DInv (st : DState) : Prop where
  bufKeys : (st.buffers.map Prod.fst).Nodup
  routKeys : (st.routed.map Prod.fst).Nodup
  routedNe : ∀ pr ∈ st.routed, pr.2 ≠ ([] : List (Str × Str))
  flow : ∀ f, getA st.contents f [] ++ getA st.buffers f [] =
    (getA st.routed f []).map (fun p => renderLine p.1 p.2)
  bufOpen : ∀ f, getA st.buffers f [] ≠ [] → f ∈ st.opened
  routedOpen : ∀ f, getA st.routed f [] ≠ [] → f ∈ st.opened
  openedNodup : st.opened.Nodup
  datesNodup : st.dates.Nodup
  datesNoSep : ∀ x ∈ st.dates, '_' ∉ x
  routedShape : ∀ f, getA st.routed f [] ≠ [] →
    ∃ op e, op ∈ OPS ∧ '_' ∉ e ∧ f = op ++ '_' :: (e ++ ".log".data) ∧ e ∈ st.dates ∧
      ∀ pr ∈ getA st.routed f [], firstTok (Prod.fst pr) = some e

theorem DInv_init : DInv initD := by
  constructor <;> simp [initD, getA]

theorem nodup_app_one (l : List Str) (a : Str) (h : l.Nodup) (ha : a ∉ l) :
    (l ++ [a]).Nodup := by
  simp [List.nodup_append, h, ha]

/-- Invariant preservation for the routing step of `buffer_query`:
append one rendered line and one ghost pair for the file of the
classified operation and the first date token. -/
theorem route_core (st : DState) (ts sql op d0 fn : Str) (D O : List Str)
    (hI : DInv st)
    (hfn : fn = op ++ '_' :: (d0 ++ ".log".data))
    (hdsep : '_' ∉ d0) (hts : firstTok ts = some d0)
    (hops : op ∈ OPS)
    (hDnd : D.Nodup) (hDsep : ∀ x ∈ D, '_' ∉ x) (hDsub : st.dates ⊆ D) (hd0D : d0 ∈ D)
    (hOnd : O.Nodup) (hOsub : st.opened ⊆ O) (hfnO : fn ∈ O) :
    DInv ⟨D, setA st.buffers fn (getA st.buffers fn [] ++ [renderLine ts sql]),
      st.contents, setA st.routed fn (getA st.routed fn [] ++ [(ts, sql)]), O, st.closed⟩ := by
  refine ⟨?_, ?_, ?_, ?_, ?_, ?_, ?_, ?_, ?_, ?_⟩
  · exact keys_setA_nodup _ _ _ hI.bufKeys
  · exact keys_setA_nodup _ _ _ hI.routKeys
  · intro pr hpr
    rcases mem_setA _ _ _ _ hpr with hm | he
    · exact hI.routedNe pr hm
    · rw [he]
      simp
  · intro f
    by_cases hf : f = fn
    · subst hf
      rw [getA_setA_same, getA_setA_same, ← List.append_assoc, hI.flow f, List.map_append]
      rfl
    · rw [getA_setA_other _ _ _ _ _ (fun he => hf he.symm),
        getA_setA_other _ _ _ _ _ (fun he => hf he.symm)]
      exact hI.flow f
  · intro f hne
    by_cases hf : f = fn
    · subst hf; exact hfnO
    · rw [getA_setA_other _ _ _ _ _ (fun he => hf he.symm)] at hne
      exact hOsub (hI.bufOpen f hne)
  · intro f hne
    by_cases hf : f = fn
    · subst hf; exact hfnO
    · rw [getA_setA_other _ _ _ _ _ (fun he => hf he.symm)] at hne
      exact hOsub (hI.routedOpen f hne)
  · exact hOnd
  · exact hDnd
  · exact hDsep
  · intro f hne
    by_cases hf : f = fn
    · subst hf
      rw [getA_setA_same] at hne ⊢
      by_cases hold : getA st.routed f [] = []
      · refine ⟨op, d0, hops, hdsep, hfn, hd0D, ?_⟩
        intro pr hpr
        rw [hold, List.nil_append] at hpr
        rw [List.mem_singleton.mp hpr]
        exact hts
      · obtain ⟨op1, e1, hop1, he1, hfe, he1D, hall⟩ := hI.routedShape f hold
        have halign := noSep_align op1 op (e1 ++ ".log".data) (d0 ++ ".log".data)
          (OPS_noSep op1 hop1) (OPS_noSep op hops) (by rw [← hfe, ← hfn])
        have he1d0 : e1 = d0 := List.append_cancel_right halign.2
        refine ⟨op, d0, hops, hdsep, hfn, hd0D, ?_⟩
        intro pr hpr
        rcases List.mem_append.mp hpr with hm | hm
        · rw [← he1d0]
          exact hall pr hm
        · rw [List.mem_singleton.mp hm]
          exact hts
    · rw [getA_setA_other _ _ _ _ _ (fun he => hf he.symm)] at hne ⊢
      obtain ⟨op1, e1, hop1, he1, hfe, he1D, hall⟩ := hI.routedShape f hne
      exact ⟨op1, e1, hop1, he1, hfe, hDsub he1D, hall⟩

/-- Invariant preservation for the size-triggered flush of one file
inside `buffer_query`. -/
theorem flush_one_inv (st : DState) (fn : Str) (hI : DInv st) :
    DInv ⟨st.dates, setA st.buffers fn [],
      setA st.contents fn (getA st.contents fn [] ++ getA st.buffers fn []),
      st.routed, st.opened, st.closed⟩ := by
  refine ⟨?_, hI.routKeys, hI.routedNe, ?_, ?_, hI.routedOpen, hI.openedNodup,
    hI.datesNodup, hI.datesNoSep, hI.routedShape⟩
  · exact keys_setA_nodup _ _ _ hI.bufKeys
  · intro f
    by_cases hf : f = fn
    · subst hf
      rw [getA_setA_same, getA_setA_same, List.append_nil]
      exact hI.flow f
    · rw [getA_setA_other _ _ _ _ _ (fun he => hf he.symm),
        getA_setA_other _ _ _ _ _ (fun he => hf he.symm)]
      exact hI.flow f
  · intro f hne
    by_cases hf : f = fn
    · subst hf
      rw [getA_setA_same] at hne
      exact absurd rfl hne
    · rw [getA_setA_other _ _ _ _ _ (fun he => hf he.symm)] at hne
      exact hI.bufOpen f hne

/-- The routing step followed by the size-triggered flush. -/
theorem route_flush_core (st : DState) (ts sql op d0 fn : Str) (D O : List Str)
    (hI : DInv st)
    (hfn : fn = op ++ '_' :: (d0 ++ ".log".data))
    (hdsep : '_' ∉ d0) (hts : firstTok ts = some d0)
    (hops : op ∈ OPS)
    (hDnd : D.Nodup) (hDsep : ∀ x ∈ D, '_' ∉ x) (hDsub : st.dates ⊆ D) (hd0D : d0 ∈ D)
    (hOnd : O.Nodup) (hOsub : st.opened ⊆ O) (hfnO : fn ∈ O) :
    DInv ⟨D,
      setA (setA st.buffers fn (getA st.buffers fn [] ++ [renderLine ts sql])) fn [],
      setA st.contents fn (getA st.contents fn [] ++
        getA (setA st.buffers fn (getA st.buffers fn [] ++ [renderLine ts sql])) fn []),
      setA st.routed fn (getA st.routed fn [] ++ [(ts, sql)]), O, st.closed⟩ :=
  flush_one_inv
    ⟨D, setA st.buffers fn (getA st.buffers fn [] ++ [renderLine ts sql]),
      st.contents, setA st.routed fn (getA st.routed fn [] ++ [(ts, sql)]), O, st.closed⟩ fn
    (route_core st ts sql op d0 fn D O hI hfn hdsep hts hops hDnd hDsep hDsub hd0D hOnd
      hOsub hfnO)

/-- `buffer_query` preserves the writer invariant whenever it returns
(does not raise), provided the record timestamp starts with a
separator-free date token. -/
theorem bufferQuery_inv (q : Query) (st st2 : DState)
    (hq : ∃ e, firstTok q.ts = some e ∧ '_' ∉ e)
    (hI : DInv st) (hb : bufferQuery q st = some st2) : DInv st2 := by
  obtain ⟨d0, hd0, hd0sep⟩ := hq
  unfold bufferQuery at hb
  cases hop : classifyOp (rstripSemi q.sql) with
  | none =>
    simp only [hop] at hb
    exact nomatch hb
  | some op =>
    have hops := classifyOp_mem_OPS _ _ hop
    have hsubD : st.dates ⊆ st.dates ++ [d0] := List.subset_append_left _ _
    have hsubO : st.opened ⊆ st.opened ++ [op ++ '_' :: d0 ++ ".log".data] :=
      List.subset_append_left _ _
    by_cases hdm : d0 ∈ st.dates <;>
      by_cases hfo : (op ++ '_' :: d0 ++ ".log".data) ∈ st.opened <;>
        simp only [hop, hd0, hdm, hfo, if_true, if_false, eq_self_iff_true, not_true,
          not_false_iff] at hb
    · split at hb
      · injection hb with hb
        subst hb
        exact route_flush_core st q.ts (rstripSemi q.sql) op d0 _ st.dates st.opened hI (by simp)
          hd0sep hd0 hops hI.datesNodup hI.datesNoSep (fun x h => h) hdm hI.openedNodup
          (fun x h => h) hfo
      · injection hb with hb
        subst hb
        exact route_core st q.ts (rstripSemi q.sql) op d0 _ st.dates st.opened hI (by simp)
          hd0sep hd0 hops hI.datesNodup hI.datesNoSep (fun x h => h) hdm hI.openedNodup
          (fun x h => h) hfo
    · split at hb
      · injection hb with hb
        subst hb
        exact route_flush_core st q.ts (rstripSemi q.sql) op d0 _ st.dates
          (st.opened ++ [op ++ '_' :: d0 ++ ".log".data]) hI (by simp) hd0sep hd0 hops
          hI.datesNodup hI.datesNoSep (fun x h => h) hdm
          (nodup_app_one _ _ hI.openedNodup hfo) hsubO (by simp)
      · injection hb with hb
        subst hb
        exact route_core st q.ts (rstripSemi q.sql) op d0 _ st.dates
          (st.opened ++ [op ++ '_' :: d0 ++ ".log".data]) hI (by simp) hd0sep hd0 hops
          hI.datesNodup hI.datesNoSep (fun x h => h) hdm
          (nodup_app_one _ _ hI.openedNodup hfo) hsubO (by simp)
    · split at hb
      · injection hb with hb
        subst hb
        exact route_flush_core st q.ts (rstripSemi q.sql) op d0 _ (st.dates ++ [d0])
          st.opened hI (by simp) hd0sep hd0 hops (nodup_app_one _ _ hI.datesNodup hdm)
          (by intro x hx
              rcases List.mem_append.mp hx with h | h
              · exact hI.datesNoSep x h
              · rw [List.mem_singleton.mp h]; exact hd0sep)
          hsubD (by simp) hI.openedNodup (fun x h => h) hfo
      · injection hb with hb
        subst hb
        exact route_core st q.ts (rstripSemi q.sql) op d0 _ (st.dates ++ [d0])
          st.opened hI (by simp) hd0sep hd0 hops (nodup_app_one _ _ hI.datesNodup hdm)
          (by intro x hx
              rcases List.mem_append.mp hx with h | h
              · exact hI.datesNoSep x h
              · rw [List.mem_singleton.mp h]; exact hd0sep)
          hsubD (by simp) hI.openedNodup (fun x h => h) hfo
    · split at hb
      · injection hb with hb
        subst hb
        exact route_flush_core st q.ts (rstripSemi q.sql) op d0 _ (st.dates ++ [d0])
          (st.opened ++ [op ++ '_' :: d0 ++ ".log".data]) hI (by simp) hd0sep hd0 hops
          (nodup_app_one _ _ hI.datesNodup hdm)
          (by intro x hx
              rcases List.mem_append.mp hx with h | h
              · exact hI.datesNoSep x h
              · rw [List.mem_singleton.mp h]; exact hd0sep)
          hsubD (by simp) (nodup_app_one _ _ hI.openedNodup hfo) hsubO (by simp)
      · injection hb with hb
        subst hb
        exact route_core st q.ts (rstripSemi q.sql) op d0 _ (st.dates ++ [d0])
          (st.opened ++ [op ++ '_' :: d0 ++ ".log".data]) hI (by simp) hd0sep hd0 hops
          (nodup_app_one _ _ hI.datesNodup hdm)
          (by intro x hx
              rcases List.mem_append.mp hx with h | h
              · exact hI.datesNoSep x h
              · rw [List.mem_singleton.mp h]; exact hd0sep)
          hsubD (by simp) (nodup_app_one _ _ hI.openedNodup hfo) hsubO (by simp)

/-! ### The read loop and the finally block -/

/-- Invariant of the in-progress record: its timestamp has a first
token and that token contains no underscore. -/
def QOk : Option Query → Prop
  | none => True
  | some q => ∃ e, firstTok q.ts = some e ∧ '_' ∉ e

theorem QOk_extract (line : Str) : QOk (extract_query line) := by
  cases he : extract_query line with
  | none => exact trivial
  | some q => exact extract_query_tsOk line q he

theorem dayStep_inv (st : DState) (cq : Option Query) (l : Str) (st2 : DState)
    (cq2 : Option Query) (h : dayStep (st, cq) l = some (st2, cq2))
    (hI : DInv st) (hQ : QOk cq) : DInv st2 ∧ QOk cq2 := by
  unfold dayStep at h
  cases cq with
  | some q =>
    by_cases he : List.isEmpty (stripWS l) = true <;>
      by_cases hdg : (Option.map Char.isDigit (List.head? (stripWS l))).getD false = true <;>
        simp only [he, hdg, eq_self_iff_true, if_true, if_false, not_true, not_false_iff] at h
    · injection h with h
      injection h with h1 h2
      subst h1; subst h2
      exact ⟨hI, hQ⟩
    · injection h with h
      injection h with h1 h2
      subst h1; subst h2
      exact ⟨hI, hQ⟩
    · cases hbq : bufferQuery q st with
      | none =>
        rw [hbq] at h
        exact nomatch h
      | some s1 =>
        rw [hbq] at h
        have h : some (s1, extract_query (stripWS l)) = some (st2, cq2) := h
        injection h with h
        injection h with h1 h2
        subst h1; subst h2
        exact ⟨bufferQuery_inv q st s1 hQ hI hbq, QOk_extract _⟩
    · injection h with h
      injection h with h1 h2
      subst h1; subst h2
      exact ⟨hI, hQ⟩
  | none =>
    by_cases he : List.isEmpty (stripWS l) = true <;>
      by_cases hdg : (Option.map Char.isDigit (List.head? (stripWS l))).getD false = true <;>
        simp only [he, hdg, eq_self_iff_true, if_true, if_false, not_true, not_false_iff] at h
    · injection h with h
      injection h with h1 h2
      subst h1; subst h2
      exact ⟨hI, hQ⟩
    · injection h with h
      injection h with h1 h2
      subst h1; subst h2
      exact ⟨hI, hQ⟩
    · injection h with h
      injection h with h1 h2
      subst h1; subst h2
      exact ⟨hI, QOk_extract _⟩
    · injection h with h
      injection h with h1 h2
      subst h1; subst h2
      exact ⟨hI, hQ⟩

theorem dayLoop_inv : ∀ (lines : List Str) (st : DState) (cq : Option Query),
    DInv st → QOk cq →
    DInv (dayLoop lines (st, cq)).2.1 ∧ QOk (dayLoop lines (st, cq)).2.2 := by
  intro lines
  induction lines with
  | nil =>
    intro st cq hI hQ
    exact ⟨hI, hQ⟩
  | cons l ls ih =>
    intro st cq hI hQ
    rw [dayLoop]
    cases hs : dayStep (st, cq) l with
    | none =>
      exact ⟨hI, hQ⟩
    | some s2 =>
      obtain ⟨stn, cqn⟩ := s2
      have hi2 := dayStep_inv st cq l stn cqn hs hI hQ
      exact ih stn cqn hi2.1 hi2.2

theorem dayFinally_state (st : DState) (cq : Option Query) (c2 : Bool) (st2 : DState)
    (hI : DInv st) (hQ : QOk cq) (h : dayFinally st cq = (c2, st2)) :
    ∃ st1 : DState, DInv st1 ∧ st2.routed = st1.routed ∧ st2.dates = st1.dates ∧
      st2.opened = st1.opened ∧
      (c2 = false → st2 = closeAll (flushBuffers st1)) := by
  unfold dayFinally at h
  cases cq with
  | some q =>
    have h : (match bufferQuery q st with
      | none => ((true, st) : Bool × DState)
      | some s1 => (false, closeAll (flushBuffers s1))) = (c2, st2) := h
    cases hbq : bufferQuery q st with
    | none =>
      rw [hbq] at h
      have h : ((true, st) : Bool × DState) = (c2, st2) := h
      injection h with h1 h2
      refine ⟨st, hI, by rw [← h2], by rw [← h2], by rw [← h2], fun hc => ?_⟩
      rw [← h1] at hc
      exact nomatch hc
    | some s1 =>
      rw [hbq] at h
      have h : ((false, closeAll (flushBuffers s1)) : Bool × DState) = (c2, st2) := h
      injection h with h1 h2
      exact ⟨s1, bufferQuery_inv q st s1 hQ hI hbq, by rw [← h2]; rfl, by rw [← h2]; rfl,
        by rw [← h2]; rfl, fun _ => h2.symm⟩
  | none =>
    have h : ((false, closeAll (flushBuffers st)) : Bool × DState) = (c2, st2) := h
    injection h with h1 h2
    exact ⟨st, hI, by rw [← h2]; rfl, by rw [← h2]; rfl, by rw [← h2]; rfl,
      fun _ => h2.symm⟩

theorem dayRun_eq (lines : List Str) (c1 c2 : Bool) (st : DState) (cq : Option Query)
    (st2 : DState) (h1 : dayLoop lines (initD, none) = (c1, st, cq))
    (h2 : dayFinally st cq = (c2, st2)) : dayRun lines = ⟨c1 || c2, st2⟩ := by
  unfold dayRun
  rw [h1]
  show (match dayFinally st cq with
    | (c2, st2) => (⟨c1 || c2, st2⟩ : DayOutcome)) = _
  rw [h2]

theorem dayRun_state (lines : List Str) :
    ∃ st1 : DState, DInv st1 ∧ (dayRun lines).st.routed = st1.routed ∧
      (dayRun lines).st.dates = st1.dates ∧ (dayRun lines).st.opened = st1.opened ∧
      ((dayRun lines).crashed = false → (dayRun lines).st = closeAll (flushBuffers st1)) := by
  rcases hL : dayLoop lines (initD, none) with ⟨c1, stcq⟩
  obtain ⟨stl, cql⟩ := stcq
  have hIl := dayLoop_inv lines initD none DInv_init trivial
  rw [hL] at hIl
  rcases hF : dayFinally stl cql with ⟨c2, st2⟩
  obtain ⟨st1, hI1, hr, hd, ho, hflush⟩ := dayFinally_state stl cql c2 st2 hIl.1 hIl.2 hF
  rw [dayRun_eq lines c1 c2 stl cql st2 hL hF]
  refine ⟨st1, hI1, hr, hd, ho, fun hc => ?_⟩
  apply hflush
  have : (c1 || c2) = false := hc
  exact (Bool.or_eq_false_iff.mp this).2

/-! ### Claim C9 -/

/-- First delivered line of the C9 runs: a complete timestamped
`SELECT` statement. -/
def c9line1 : Str := "2024-01-01 09:00:00 LOG:  statement: SELECT 1;".data

/-- Second line: a timestamped statement whose body is empty before the
terminating semicolon. -/
def c9line2 : Str := "2024-01-01 10:00:00 LOG:  statement: ;".data

/-- Third line: a bare `;` continuation, making the in-progress body
whitespace-only after semicolon stripping. -/
def c9line3 : Str := ";".data

/-- Claim C9 counterexample: the input stream is delivered in full, yet
the final `buffer_query` of the `finally` block raises (whitespace-only
body), so the statements after it never run: the run ends crashed with
a buffered-but-unflushed line and an opened-but-never-closed store. -/
theorem C9_counterexample :
    (dayRun [c9line1, c9line2, c9line3]).crashed = true ∧
    (dayRun [c9line1, c9line2, c9line3]).st.buffers ≠ [] ∧
    (dayRun [c9line1, c9line2, c9line3]).st.opened ≠ [] ∧
    (dayRun [c9line1, c9line2, c9line3]).st.closed = [] := by decide

/-- Claim C9 (amended): when the run terminates without the `finally`
block itself raising — `crashed = false`, which covers both normal
completion and an input stream that simply ends early — every buffered
line is appended to its backing store (the buffers are empty and, per
file, the persisted lines are exactly the rendered routed pairs, so no
buffered line is lost) and every opened store handle is closed exactly
once (the closed list equals the duplicate-free opened list). -/
theorem C9_flush_and_close (lines : List Str) (h : (dayRun lines).crashed = false) :
    (dayRun lines).st.buffers = [] ∧
    (dayRun lines).st.closed = (dayRun lines).st.opened ∧
    (dayRun lines).st.opened.Nodup ∧
    ∀ f, getA (dayRun lines).st.contents f [] =
      (getA (dayRun lines).st.routed f []).map (fun p => renderLine p.1 p.2) := by
  obtain ⟨st1, hI1, hr, hd, ho, hflush⟩ := dayRun_state lines
  have he := hflush h
  rw [he]
  refine ⟨rfl, rfl, hI1.openedNodup, ?_⟩
  intro f
  have hbo : ∀ g b, (g, b) ∈ st1.buffers → b ≠ [] → g ∈ st1.opened := by
    intro g b hm hb
    have hg := getA_of_mem_nodup st1.buffers g b [] hI1.bufKeys hm
    exact hI1.bufOpen g (by rw [hg]; exact hb)
  have hc : (closeAll (flushBuffers st1)).contents
      = flushFold st1.opened st1.buffers st1.contents := rfl
  rw [hc, flushFold_get st1.opened st1.buffers st1.contents hI1.bufKeys hbo f]
  have hrr : (closeAll (flushBuffers st1)).routed = st1.routed := rfl
  rw [hrr]
  exact hI1.flow f

/-- Witness for C9 on a crash-free one-line run. -/
theorem C9_flush_and_close_witness :
    (dayRun [c9line1]).crashed = false ∧
    ((dayRun [c9line1]).st.buffers = [] ∧
     (dayRun [c9line1]).st.closed = (dayRun [c9line1]).st.opened ∧
     (dayRun [c9line1]).st.opened.Nodup ∧
     ∀ f, getA (dayRun [c9line1]).st.contents f [] =
       (getA (dayRun [c9line1]).st.routed f []).map (fun p => renderLine p.1 p.2)) :=
  ⟨by decide, C9_flush_and_close [c9line1] (by decide)⟩

/-! ### Claim C10 -/

/-- The one delivered line of the C10 witness run. -/
def c10line : Str := "2024-01-01 09:00:00 LOG:  statement: SELECT 1;".data

/-- Claim C10: routing invariant of `buffer_query`.  Every file the
run ever buffered a line for is named `<op>_<d>.log` with `op` one of
the five operation kinds and `d` the first whitespace-delimited token
of the timestamp of every line routed to that file, and `d` is among
the observed `dates_seen`.  Consequently the label-driven glob of
`generate_daily_summary` reaches the file under exactly one observed
date, so every persisted line is read exactly once. -/
theorem C10_routing_invariant (lines : List Str) (f : Str) (pairs : List (Str × Str))
    (hmem : (f, pairs) ∈ (dayRun lines).st.routed) :
    ∃ op d, op ∈ OPS ∧ f = op ++ '_' :: (d ++ ".log".data) ∧
      d ∈ (dayRun lines).st.dates ∧
      (∀ pr ∈ pairs, firstTok (Prod.fst pr) = some d) ∧
      ((dayRun lines).st.dates.filter
        (fun d2 => f ∈ globDate (dayRun lines).st.opened d2)).length = 1 := by
  obtain ⟨st1, hI1, hr, hd, ho, _⟩ := dayRun_state lines
  rw [hr] at hmem
  rw [hd, ho]
  have hga : getA st1.routed f [] = pairs :=
    getA_of_mem_nodup st1.routed f pairs [] hI1.routKeys hmem
  have hne : pairs ≠ [] := hI1.routedNe (f, pairs) hmem
  have hgne : getA st1.routed f [] ≠ [] := by rw [hga]; exact hne
  obtain ⟨op, d, hops, hdsep, hfe, hdm, hall⟩ := hI1.routedShape f hgne
  refine ⟨op, d, hops, hfe, hdm, ?_, ?_⟩
  · intro pr hpr
    exact hall pr (by rw [hga]; exact hpr)
  · rw [hfe]
    exact globDate_count st1.dates st1.opened op d hI1.datesNodup hI1.datesNoSep hdm hops
      hdsep (by rw [← hfe]; exact hI1.routedOpen f hgne)

/-- Witness for C10 on a one-line run routing to
`SELECT_2024-01-01.log`. -/
theorem C10_routing_invariant_witness :
    (("SELECT_2024-01-01.log".data,
        [("2024-01-01 09:00:00".data, "SELECT 1".data)]) ∈
      (dayRun [c10line]).st.routed) ∧
    (∃ op d, op ∈ OPS ∧
      "SELECT_2024-01-01.log".data = op ++ '_' :: (d ++ ".log".data) ∧
      d ∈ (dayRun [c10line]).st.dates ∧
      (∀ pr ∈ [("2024-01-01 09:00:00".data, "SELECT 1".data)],
        firstTok (Prod.fst pr) = some d) ∧
      ((dayRun [c10line]).st.dates.filter
        (fun d2 => "SELECT_2024-01-01.log".data ∈
          globDate (dayRun [c10line]).st.opened d2)).length = 1) :=
  ⟨by decide,
    C10_routing_invariant [c10line] "SELECT_2024-01-01.log".data
      [("2024-01-01 09:00:00".data, "SELECT 1".data)] (by decide)⟩
